import Mathlib

/-!
Verification of the five-clique search program.

The program finds all combinations of five 5-letter words with 25 pairwise
distinct letters.  Words are encoded as 26-bit letter sets; an anagram index
groups words by letter set; a forward-only disjointness graph is built over
the distinct letter sets; a pruned backtracking search enumerates cliques of
five pairwise disjoint letter sets; finally cliques are expanded back into
word tuples, canonicalized and sorted.

Python dictionaries are modelled as association lists (preserving insertion
order), Python sets as Finsets together with an enumeration oracle that
captures the unspecified iteration order of a Python set, and the recursive
search carries an explicit fuel parameter (shown sufficient and irrelevant
beyond the actual recursion depth).
-/

namespace FiveClique

/-- Words are lists of character ordinals (the program assumes lowercase input). -/
abbrev Word := List Nat

/-- Embeds letter_set: fold bitwise-or of 1 shifted by (ord char - ord 'a'). -/
def letter_set (word : Word) : Nat :=
  word.foldl (fun ret char => ret ||| (1 <<< (char - 97))) 0

/-- Fuelled Kernighan loop; the fuel only makes the recursion structural, see
FiveClique.bit_count_eq for the self-contained recurrence. -/
def bitCountGo : Nat → Nat → Nat
  | _, 0 => 0
  | num, fuel + 1 => if num = 0 then 0 else bitCountGo (num &&& (num - 1)) fuel + 1

/-- Embeds bit_count: Kernighan clear-lowest-set-bit loop. -/
def bit_count (num : Nat) : Nat := bitCountGo num num

/-- The lowercase alphabet as character ordinals, mirroring ascii_lowercase. -/
def ascii_lowercase : Word :=
  [97, 98, 99, 100, 101, 102, 103, 104, 105, 106, 107, 108, 109,
   110, 111, 112, 113, 114, 115, 116, 117, 118, 119, 120, 121, 122]

/-- Embeds ALL_LETTERS = letter_set(ascii_lowercase). -/
def ALL_LETTERS : Nat := letter_set ascii_lowercase

/-- Appending a word to the list stored under a key of the anagram dictionary
(defaultdict(list) semantics, insertion order preserved). -/
def addWord : List (Nat × List Word) → Nat → Word → List (Nat × List Word)
  | [], k, w => [(k, [w])]
  | (k', l) :: rest, k, w =>
    if k' = k then (k', l ++ [w]) :: rest else (k', l) :: addWord rest k w

/-- Embeds read_words: keep only words of length 5 whose letter set has
population count 5, grouping them by letter set. -/
def read_words (stream : List Word) : List (Nat × List Word) :=
  stream.foldl
    (fun anagrams word =>
      if word.length ≠ 5 then anagrams
      else
        let char_set := letter_set word
        if bit_count char_set ≠ 5 then anagrams
        else addWord anagrams char_set word)
    []

/-- Dictionary lookup in an association list, empty list for a missing key. -/
def lookupW (anagrams : List (Nat × List Word)) (k : Nat) : List Word :=
  ((anagrams.find? (fun e => e.1 == k)).map Prod.snd).getD []

/-- The keys of the anagram dictionary in insertion order. -/
def keyList (anagrams : List (Nat × List Word)) : List Nat := anagrams.map Prod.fst

/-- The sorted list of anagram keys, as used both by neighbor_graph and by main.
Insertion sort is a faithful embedding of the sorted builtin: for the total
antisymmetric order on Nat the sorted permutation of a list is unique. -/
def sortedKeys (anagrams : List (Nat × List Word)) : List Nat :=
  (keyList anagrams).insertionSort (· ≤ ·)

/-- Inner construction of neighbor_graph: for each key, collect the later keys
sharing no letter with it. -/
def ngAux : List Nat → List (Nat × Finset Nat)
  | [] => []
  | char_set :: rest =>
    (char_set, (rest.filter (fun o => char_set &&& o == 0)).toFinset) :: ngAux rest

/-- Embeds neighbor_graph: forward-only disjointness adjacency over sorted keys. -/
def neighbor_graph (anagrams : List (Nat × List Word)) : List (Nat × Finset Nat) :=
  ngAux (sortedKeys anagrams)

/-- Graph dictionary lookup, with the empty set for a missing key. -/
def lookupG (graph : List (Nat × Finset Nat)) (k : Nat) : Finset Nat :=
  ((graph.find? (fun e => e.1 == k)).map Prod.snd).getD ∅

/-- Loop body of untangle_words, processing the reversed argument list. -/
def untangleGo : Nat → List Nat → List Nat
  | _, [] => []
  | remain, w :: rest =>
    let word := w &&& remain
    word :: untangleGo (remain - word) rest

/-- Embeds untangle_words: recover individual letter sets from the running
unions by masking against the letters still unaccounted for. -/
def untangle_words (words : List Nat) : List Nat :=
  untangleGo ALL_LETTERS words.reverse

def TOTAL_LENGTH : Nat := 5

def TOTAL_LENGTH_MINUS_ONE : Nat := 4

/-- Mutable global state of the search: the prune cache and the accumulated
clique list. -/
structure MState where
  prune : Finset Nat
  cliques : List (List Nat)
deriving DecidableEq

/-- One iteration of the candidate loop of merge: skip a non-disjoint
candidate, skip a cached union, otherwise recurse and on failure record the
union in the prune cache.  rec is the recursive call at the next depth. -/
def mergeStep (graph : Nat → Finset Nat)
    (rec : Nat → List Nat → Finset Nat → MState → Bool × MState)
    (last_word : Nat) (words : List Nat) (neighbors : Finset Nat)
    (acc : Bool × MState) (neighbor_word : Nat) : Bool × MState :=
  if last_word &&& neighbor_word ≠ 0 then acc
  else
    let shared_letters := last_word ||| neighbor_word
    if shared_letters ∈ acc.2.prune then acc
    else
      let r := rec shared_letters (last_word :: words)
        (neighbors ∩ graph neighbor_word) acc.2
      if r.1 then (true, r.2)
      else (acc.1, ⟨insert shared_letters r.2.prune, r.2.cliques⟩)

/-- Embeds merge.  last_word is the union of the chosen letter sets, words the
earlier running unions, neighbors the current candidate set.  The fuel
parameter makes the recursion structural; fuel stability below shows any fuel
at least TOTAL_LENGTH minus the current depth gives the same result.
ordF enumerates a Python set in its (unspecified) iteration order. -/
def merge (graph : Nat → Finset Nat) (ordF : Finset Nat → List Nat) :
    Nat → Nat → List Nat → Finset Nat → MState → Bool × MState
  | 0, _, _, _, st => (false, st)
  | fuel + 1, last_word, words, neighbors, st =>
    let num_words := words.length + 1
    if neighbors.card + num_words < TOTAL_LENGTH then (false, st)
    else if num_words = TOTAL_LENGTH_MINUS_ONE then
      (true, ⟨st.prune, st.cliques ++ (ordF neighbors).map (fun neighbor_word =>
        untangle_words ((neighbor_word ||| last_word) :: last_word :: words))⟩)
    else
      (ordF neighbors).foldl
        (mergeStep graph (merge graph ordF fuel) last_word words neighbors)
        (false, st)

/-- Embeds the top-level loop of main: run merge from every key, threading the
global prune cache and clique list, starting from the empty state. -/
def runTop (graph : Nat → Finset Nat) (ordF : Finset Nat → List Nat)
    (order : List Nat) : MState :=
  order.foldl (fun st word => (merge graph ordF TOTAL_LENGTH word [] (graph word) st).2)
    ⟨∅, []⟩

/-- Cartesian product of lists, in itertools.product order. -/
def listProd : List (List Word) → List (List Word)
  | [] => [[]]
  | l :: rest => l.flatMap (fun x => (listProd rest).map (fun t => x :: t))

/-- Embeds expand: the cartesian product of the anagram classes of a clique. -/
def expand (word_list : List Nat) (anagrams : List (Nat × List Word)) :
    List (List Word) :=
  listProd (word_list.map (lookupW anagrams))

/-- The clique list produced by main on a given input stream, for a given
Python set iteration order. -/
def mainCliques (ordF : Finset Nat → List Nat) (stream : List Word) : List (List Nat) :=
  (runTop (lookupG (neighbor_graph (read_words stream))) ordF
    (sortedKeys (read_words stream))).cliques

/-- Embeds the answers expression of main: canonicalize each expanded tuple by
sorting its words, then sort the whole sequence.  Both sorts are sorted-by
lexicographic order; insertion sort is faithful because the lexicographic
order on word tuples is total and antisymmetric, so the sorted permutation
is unique. -/
def answers (ordF : Finset Nat → List Nat) (stream : List Word) : List (List Word) :=
  ((mainCliques ordF stream).flatMap (fun cliq =>
      (expand cliq (read_words stream)).map
        (fun t => t.insertionSort (· ≤ ·)))).insertionSort (· ≤ ·)

/-- A concrete enumeration oracle for subsets of a given finite universe,
usable in witnesses: list the universe and keep the members of the set. -/
def listOrd (univ : List Nat) (s : Finset Nat) : List Nat := univ.filter (· ∈ s)

/-- Six concrete letter-set keys with exactly one disjoint quintet, in the
shape suggested by the specification for a synthetic test dictionary. -/
def demoKeys : List Nat := [47, 31, 992, 31744, 1015808, 32505856]

/-- Five concrete 5-letter words with 25 pairwise distinct letters. -/
def demoStream : List Word :=
  [[97, 98, 99, 100, 101], [102, 103, 104, 105, 106], [107, 108, 109, 110, 111],
   [112, 113, 114, 115, 116], [117, 118, 119, 120, 121]]

/-- The same five words with the first one repeated, to exercise duplicate
input behaviour. -/
def demoStreamDup : List Word :=
  [[97, 98, 99, 100, 101], [97, 98, 99, 100, 101], [102, 103, 104, 105, 106],
   [107, 108, 109, 110, 111], [112, 113, 114, 115, 116], [117, 118, 119, 120, 121]]

/-! Specification-side notions used to state the claims. -/

/-- The candidate set determined by a union value alone: keys disjoint from the
union and numerically above it. -/
def cand (keys : Finset Nat) (u : Nat) : Finset Nat :=
  keys.filter (fun x => u &&& x = 0 ∧ u < x)

/-- chainB keys u L holds when L extends the union u step by step, each element
being a candidate of the union accumulated so far. -/
def chainB (keys : Finset Nat) : Nat → List Nat → Bool
  | _, [] => true
  | u, c :: rest => decide (c ∈ cand keys u) && chainB keys (u ||| c) rest

/-- Union of a starting value with all elements of a list. -/
def bigU (u : Nat) (L : List Nat) : Nat := L.foldl (fun a b => a ||| b) u

/-- The running unions along a list of chosen letter sets. -/
def runningUnions (u : Nat) : List Nat → List Nat
  | [] => []
  | c :: rest => (u ||| c) :: runningUnions (u ||| c) rest

/-- Well-formedness of an anagram key set: each key is the letter set of a
5-distinct-letter word, so has population count 5 and uses alphabet bits only. -/
def KeysOK (keys : Finset Nat) : Prop :=
  ∀ k ∈ keys, bit_count k = 5 ∧ k &&& ALL_LETTERS = k

instance (keys : Finset Nat) : Decidable (KeysOK keys) :=
  inferInstanceAs (Decidable (∀ k ∈ keys, bit_count k = 5 ∧ k &&& ALL_LETTERS = k))

/-- The graph function agrees, on every key, with the forward disjointness
adjacency of the key set. -/
def GraphOK (keys : Finset Nat) (graph : Nat → Finset Nat) : Prop :=
  ∀ c ∈ keys, graph c = cand keys c

/-- Validity of a set enumeration oracle on the sets the search can reach
(subsets of the key set): it lists exactly the elements of the set, without
repetition. -/
def OrdOn (keys : Finset Nat) (ordF : Finset Nat → List Nat) : Prop :=
  ∀ s : Finset Nat, s ⊆ keys → (ordF s).Nodup ∧ (ordF s).toFinset = s

/-- A union value is dead when no chain of further candidates can complete it
to the full 25 letters. -/
def PruneDead (keys : Finset Nat) (p : Nat) : Prop :=
  ¬ ∃ L : List Nat, chainB keys p L = true ∧ bit_count (bigU p L) = 25

/-- Soundness of a prune cache: every recorded union value is dead. -/
def PruneSound (keys : Finset Nat) (P : Finset Nat) : Prop :=
  ∀ p ∈ P, PruneDead keys p

/-- A word made of lowercase alphabet characters only (the input contract). -/
def Lowercase (w : Word) : Prop := ∀ c ∈ w, 97 ≤ c ∧ c ≤ 122

instance (w : Word) : Decidable (Lowercase w) :=
  inferInstanceAs (Decidable (∀ c ∈ w, 97 ≤ c ∧ c ≤ 122))

/-- A stream in which every word is lowercase. -/
def LowercaseStream (stream : List Word) : Prop := ∀ w ∈ stream, Lowercase w

instance (stream : List Word) : Decidable (LowercaseStream stream) :=
  inferInstanceAs (Decidable (∀ w ∈ stream, Lowercase w))

/-! Bit-level facts about the Nat operations the program uses. -/

theorem bitCountGo_zero (fuel : Nat) : bitCountGo 0 fuel = 0 := by
  cases fuel <;> simp [bitCountGo]

theorem land_pred_lt {num : Nat} (h : num ≠ 0) : num &&& (num - 1) < num :=
  Nat.lt_of_le_of_lt Nat.and_le_right (Nat.sub_lt (Nat.pos_of_ne_zero h) Nat.one_pos)

theorem bitCountGo_stable (num : Nat) : ∀ f1 f2, num ≤ f1 → num ≤ f2 →
    bitCountGo num f1 = bitCountGo num f2 := by
  induction num using Nat.strong_induction_on with
  | _ num ih =>
    intro f1 f2 h1 h2
    by_cases hz : num = 0
    · subst hz; rw [bitCountGo_zero, bitCountGo_zero]
    · have hp := Nat.pos_of_ne_zero hz
      obtain ⟨g1, rfl⟩ : ∃ g, f1 = g + 1 := ⟨f1 - 1, by omega⟩
      obtain ⟨g2, rfl⟩ : ∃ g, f2 = g + 1 := ⟨f2 - 1, by omega⟩
      have hlt := land_pred_lt hz
      simp only [bitCountGo, hz, if_false]
      rw [ih _ hlt g1 (num &&& (num - 1)) (by omega) (le_refl _),
        ih _ hlt g2 (num &&& (num - 1)) (by omega) (le_refl _)]

/-- The self-contained recurrence of the Kernighan loop. -/
theorem bit_count_eq (num : Nat) :
    bit_count num = if num = 0 then 0 else bit_count (num &&& (num - 1)) + 1 := by
  by_cases hz : num = 0
  · subst hz; simp [bit_count, bitCountGo]
  · have hp := Nat.pos_of_ne_zero hz
    obtain ⟨g, hg⟩ : ∃ g, num = g + 1 := ⟨num - 1, by omega⟩
    have hlt := land_pred_lt hz
    simp only [hz, if_false, bit_count]
    conv_lhs => rw [hg]
    simp only [bitCountGo, hg.symm, hz, if_false]
    rw [bitCountGo_stable (num &&& (num - 1)) g (num &&& (num - 1)) (by omega) (le_refl _)]

theorem bit_count_zero : bit_count 0 = 0 := rfl

theorem disj_testBit {a b : Nat} (h : a &&& b = 0) {i : Nat}
    (ha : a.testBit i = true) : b.testBit i = false := by
  have h2 : (a &&& b).testBit i = false := by rw [h]; exact Nat.zero_testBit i
  rw [Nat.testBit_and, ha] at h2
  simpa using h2

theorem subset_testBit {a b : Nat} (h : a &&& b = a) {i : Nat}
    (ha : a.testBit i = true) : b.testBit i = true := by
  have h2 := congrArg (fun x => x.testBit i) h
  simp only [Nat.testBit_and, ha, Bool.true_and] at h2
  exact h2

theorem two_mul_land_pred {m : Nat} (h : m ≠ 0) :
    (2 * m) &&& (2 * m - 1) = 2 * (m &&& (m - 1)) := by
  have hp := Nat.pos_of_ne_zero h
  apply Nat.eq_of_testBit_eq
  intro i
  cases i with
  | zero =>
    have e1 : 2 * m % 2 = 0 := by omega
    have e2 : 2 * (m &&& (m - 1)) % 2 = 0 := by omega
    simp [Nat.testBit_and, Nat.testBit_zero, e1, e2]
  | succ i =>
    have e1 : 2 * m / 2 = m := by omega
    have e2 : (2 * m - 1) / 2 = m - 1 := by omega
    have e3 : 2 * (m &&& (m - 1)) / 2 = m &&& (m - 1) := by omega
    rw [Nat.testBit_and, Nat.testBit_add_one, Nat.testBit_add_one,
      Nat.testBit_add_one, e1, e2, e3, Nat.testBit_and]

theorem two_mul_add_one_land {m : Nat} : (2 * m + 1) &&& (2 * m) = 2 * m := by
  apply Nat.eq_of_testBit_eq
  intro i
  cases i with
  | zero =>
    have e1 : (2 * m + 1) % 2 = 1 := by omega
    have e2 : 2 * m % 2 = 0 := by omega
    simp [Nat.testBit_and, Nat.testBit_zero, e1, e2]
  | succ i =>
    have e1 : (2 * m + 1) / 2 = m := by omega
    have e2 : 2 * m / 2 = m := by omega
    rw [Nat.testBit_and, Nat.testBit_add_one, Nat.testBit_add_one, e1, e2,
      Bool.and_self]

theorem bit_count_two_mul (m : Nat) : bit_count (2 * m) = bit_count m := by
  induction m using Nat.strong_induction_on with
  | _ m ih =>
    by_cases hz : m = 0
    · subst hz; rfl
    · have h2z : 2 * m ≠ 0 := by omega
      rw [bit_count_eq (2 * m), if_neg h2z, two_mul_land_pred hz,
        ih _ (land_pred_lt hz), bit_count_eq m, if_neg hz]

theorem bit_count_two_mul_add_one (m : Nat) :
    bit_count (2 * m + 1) = bit_count m + 1 := by
  have hz : 2 * m + 1 ≠ 0 := by omega
  rw [bit_count_eq (2 * m + 1), if_neg hz]
  have e : 2 * m + 1 - 1 = 2 * m := by omega
  rw [e, two_mul_add_one_land, bit_count_two_mul]

theorem bit_count_div2 (n : Nat) : bit_count n = bit_count (n / 2) + n % 2 := by
  rcases Nat.mod_two_eq_zero_or_one n with h | h
  · have e : n = 2 * (n / 2) := by omega
    conv_lhs => rw [e]
    rw [bit_count_two_mul]
    omega
  · have e : n = 2 * (n / 2) + 1 := by omega
    conv_lhs => rw [e]
    rw [bit_count_two_mul_add_one]
    omega

theorem bit_count_sum : ∀ (k n : Nat), n < 2 ^ k →
    bit_count n = ∑ j ∈ Finset.range k, (if n.testBit j then 1 else 0) := by
  intro k
  induction k with
  | zero =>
    intro n hn
    have : n = 0 := by omega
    subst this
    simp [bit_count_zero]
  | succ k ih =>
    intro n hn
    have hdiv : n / 2 < 2 ^ k := by
      rw [pow_succ] at hn
      omega
    rw [Finset.sum_range_succ', bit_count_div2 n, ih (n / 2) hdiv]
    have e0 : (if n.testBit 0 then (1 : Nat) else 0) = n % 2 := by
      rcases Nat.mod_two_eq_zero_or_one n with h | h <;>
        simp [Nat.testBit_zero, h]
    have es : ∀ j, (if n.testBit (j + 1) then (1 : Nat) else 0) =
        (if (n / 2).testBit j then 1 else 0) := by
      intro j
      rw [Nat.testBit_add_one]
    simp only [es, e0]

theorem bit_count_or_disj {a b : Nat} (h : a &&& b = 0) :
    bit_count (a ||| b) = bit_count a + bit_count b := by
  set k := a + b + 1 with hk
  have ha : a < 2 ^ k := Nat.lt_of_lt_of_le (Nat.lt_two_pow a)
    (Nat.pow_le_pow_right (by omega) (by omega))
  have hb : b < 2 ^ k := Nat.lt_of_lt_of_le (Nat.lt_two_pow b)
    (Nat.pow_le_pow_right (by omega) (by omega))
  have hor : a ||| b < 2 ^ k := Nat.or_lt_two_pow ha hb
  rw [bit_count_sum k _ hor, bit_count_sum k a ha, bit_count_sum k b hb,
    ← Finset.sum_add_distrib]
  apply Finset.sum_congr rfl
  intro j _
  rw [Nat.testBit_or]
  cases hta : a.testBit j with
  | false => cases htb : b.testBit j <;> simp
  | true =>
    have := disj_testBit h hta
    rw [this]
    simp

theorem exists_top_bit {x : Nat} (hx : x ≠ 0) :
    ∃ t, x.testBit t = true ∧ x < 2 ^ (t + 1) := by
  refine ⟨x.log2, ?_, Nat.lt_log2_self⟩
  have hle : 2 ^ x.log2 ≤ x := Nat.log2_self_le hx
  have hlt : x < 2 ^ (x.log2 + 1) := Nat.lt_log2_self
  have hpos : 0 < 2 ^ x.log2 := Nat.pos_pow_of_pos _ (by omega)
  have hge : 1 ≤ x / 2 ^ x.log2 := (Nat.one_le_div_iff hpos).2 hle
  have hlt2 : x / 2 ^ x.log2 < 2 := by
    rw [Nat.div_lt_iff_lt_mul hpos]
    rw [pow_succ] at hlt
    omega
  have : x / 2 ^ x.log2 = 1 := by omega
  rw [Nat.testBit_to_div_mod, this]
  simp

theorem lt_two_pow_of_testBit_false {n t : Nat} (hn : n < 2 ^ (t + 1))
    (ht : n.testBit t = false) : n < 2 ^ t := by
  by_contra hc
  push_neg at hc
  have hpos : 0 < 2 ^ t := Nat.pos_pow_of_pos _ (by omega)
  have hge : 1 ≤ n / 2 ^ t := (Nat.one_le_div_iff hpos).2 hc
  have hlt2 : n / 2 ^ t < 2 := by
    rw [Nat.div_lt_iff_lt_mul hpos]
    rw [pow_succ] at hn
    omega
  have hdiv : n / 2 ^ t = 1 := by omega
  rw [Nat.testBit_to_div_mod, hdiv] at ht
  simp at ht

/-- Core fact behind union-keyed pruning: a value disjoint from two smaller
values also exceeds their union. -/
theorem or_lt_of_disj {x a b : Nat} (hx : x ≠ 0) (hxa : x &&& a = 0)
    (hxb : x &&& b = 0) (ha : a < x) (hb : b < x) : a ||| b < x := by
  obtain ⟨t, hbit, hlt⟩ := exists_top_bit hx
  have hat : a.testBit t = false := disj_testBit hxa hbit
  have hbt : b.testBit t = false := disj_testBit hxb hbit
  have ha2 : a < 2 ^ t :=
    lt_two_pow_of_testBit_false (Nat.lt_trans ha hlt) hat
  have hb2 : b < 2 ^ t :=
    lt_two_pow_of_testBit_false (Nat.lt_trans hb hlt) hbt
  exact Nat.lt_of_lt_of_le (Nat.or_lt_two_pow ha2 hb2) (Nat.testBit_implies_ge hbit)

theorem nat_le_or_left (a b : Nat) : a ≤ a ||| b := by
  have h : a &&& (a ||| b) = a := by
    apply Nat.eq_of_testBit_eq
    intro i
    rw [Nat.testBit_and, Nat.testBit_or]
    cases a.testBit i <;> simp
  calc a = a &&& (a ||| b) := h.symm
    _ ≤ a ||| b := Nat.and_le_right

theorem nat_le_or_right (a b : Nat) : b ≤ a ||| b := by
  rw [Nat.or_comm]
  exact nat_le_or_left b a

theorem add_eq_or_of_disj {a : Nat} : ∀ {b : Nat}, a &&& b = 0 → a + b = a ||| b := by
  induction a using Nat.strong_induction_on with
  | _ a ih =>
    intro b h
    by_cases hz : a = 0
    · subst hz; simp
    · have hdiv : a / 2 &&& b / 2 = 0 := by
        rw [← Nat.and_div_two, h]
      have hrec : a / 2 + b / 2 = a / 2 ||| b / 2 :=
        ih (a / 2) (by omega) hdiv
      have hnotboth : ¬(a % 2 = 1 ∧ b % 2 = 1) := by
        intro ⟨h1, h2⟩
        have : (a &&& b) % 2 = 1 := Nat.and_mod_two_eq_one.2 ⟨h1, h2⟩
        rw [h] at this
        omega
      have hmod : (a ||| b) % 2 = a % 2 + b % 2 := by
        rcases Nat.mod_two_eq_zero_or_one a with h1 | h1 <;>
          rcases Nat.mod_two_eq_zero_or_one b with h2 | h2
        · have : ¬((a ||| b) % 2 = 1) := by
            intro hc
            rcases Nat.or_mod_two_eq_one.1 hc with hc | hc <;> omega
          omega
        · rw [h1, h2, Nat.or_mod_two_eq_one.2 (Or.inr h2)]
        · rw [h1, h2, Nat.or_mod_two_eq_one.2 (Or.inl h1)]
        · exact absurd ⟨h1, h2⟩ hnotboth
      have hordiv : (a ||| b) / 2 = a / 2 ||| b / 2 := Nat.or_div_two
      omega

theorem sub_eq_xor_of_subset {x y : Nat} (h : x &&& y = x) : y - x = y ^^^ x := by
  have hd : x &&& (y ^^^ x) = 0 := by
    apply Nat.eq_of_testBit_eq
    intro i
    rw [Nat.testBit_and, Nat.testBit_xor, Nat.zero_testBit]
    cases hx : x.testBit i with
    | false => simp
    | true => rw [subset_testBit h hx]; simp
  have ho : x ||| (y ^^^ x) = y := by
    apply Nat.eq_of_testBit_eq
    intro i
    rw [Nat.testBit_or, Nat.testBit_xor]
    cases hx : x.testBit i with
    | false => simp
    | true => rw [subset_testBit h hx]; simp
  have := add_eq_or_of_disj hd
  rw [ho] at this
  omega

/-! Facts about the letter-set codec. -/

theorem letter_set_foldl (w : Word) : ∀ acc : Nat,
    w.foldl (fun ret char => ret ||| (1 <<< (char - 97))) acc = acc ||| letter_set w := by
  induction w with
  | nil => intro acc; simp [letter_set]
  | cons c w ih =>
    intro acc
    show w.foldl _ (acc ||| (1 <<< (c - 97))) = _
    rw [ih]
    show _ = acc ||| (List.foldl _ (0 ||| (1 <<< (c - 97))) w)
    rw [ih (0 ||| (1 <<< (c - 97))), Nat.zero_or, Nat.or_assoc]

theorem letter_set_nil : letter_set [] = 0 := rfl

theorem letter_set_cons (c : Nat) (w : Word) :
    letter_set (c :: w) = (1 <<< (c - 97)) ||| letter_set w := by
  show w.foldl _ (0 ||| (1 <<< (c - 97))) = _
  rw [letter_set_foldl, Nat.zero_or]

theorem one_shiftLeft_eq (n : Nat) : 1 <<< n = 2 ^ n := by
  rw [Nat.shiftLeft_eq, Nat.one_mul]

theorem testBit_letter_set (w : Word) (j : Nat) :
    (letter_set w).testBit j = true ↔ ∃ c ∈ w, c - 97 = j := by
  induction w with
  | nil => simp [letter_set_nil]
  | cons c w ih =>
    rw [letter_set_cons, Nat.testBit_or, one_shiftLeft_eq, Nat.testBit_two_pow]
    simp only [Bool.or_eq_true, decide_eq_true_eq, List.mem_cons, ih]
    constructor
    · rintro (h | ⟨d, hd, he⟩)
      · exact ⟨c, Or.inl rfl, h⟩
      · exact ⟨d, Or.inr hd, he⟩
    · rintro ⟨d, (rfl | hd), he⟩
      · exact Or.inl he
      · exact Or.inr ⟨d, hd, he⟩

theorem letter_set_lt {w : Word} (hw : Lowercase w) : letter_set w < 2 ^ 26 := by
  apply Nat.lt_pow_two_of_testBit
  intro i hi
  cases h : (letter_set w).testBit i with
  | false => rfl
  | true =>
    obtain ⟨c, hc, he⟩ := (testBit_letter_set w i).1 h
    have := hw c hc
    omega

theorem bit_count_letter_set {w : Word} (hw : Lowercase w) :
    bit_count (letter_set w) = w.toFinset.card := by
  rw [bit_count_sum 26 _ (letter_set_lt hw)]
  have himg : (Finset.range 26).filter (fun j => (letter_set w).testBit j) =
      w.toFinset.image (fun c => c - 97) := by
    ext j
    simp only [Finset.mem_filter, Finset.mem_range, Finset.mem_image, List.mem_toFinset]
    constructor
    · rintro ⟨_, hb⟩
      exact (testBit_letter_set w j).1 hb
    · rintro ⟨c, hc, he⟩
      have hcr := hw c hc
      exact ⟨by omega, (testBit_letter_set w j).2 ⟨c, hc, he⟩⟩
  have hcard : ((Finset.range 26).filter (fun j => (letter_set w).testBit j)).card =
      w.toFinset.card := by
    rw [himg]
    apply Finset.card_image_of_injOn
    intro a ha b hb he
    simp only [Finset.mem_coe, List.mem_toFinset] at ha hb
    have h1 := hw a ha
    have h2 := hw b hb
    dsimp only at he
    omega
  rw [← hcard, Finset.card_filter]

theorem letter_set_subset_all {w : Word} (hw : Lowercase w) :
    letter_set w &&& ALL_LETTERS = letter_set w := by
  have hall : ALL_LETTERS = 2 ^ 26 - 1 := by decide
  rw [hall, Nat.and_pow_two_sub_one_eq_mod]
  exact Nat.mod_eq_of_lt (letter_set_lt hw)

/-- C8: for a lowercase word, bit_count of letter_set counts the distinct
letters; a word with all-distinct letters scores its length, and a word with
a repeated letter scores strictly less than its length. -/
theorem C8_codec_invariant (w : Word) (hw : Lowercase w) :
    bit_count (letter_set w) = w.toFinset.card ∧
    (w.Nodup → bit_count (letter_set w) = w.length) ∧
    (¬w.Nodup → bit_count (letter_set w) < w.length) := by
  refine ⟨bit_count_letter_set hw, ?_, ?_⟩
  · intro hnd
    rw [bit_count_letter_set hw, List.toFinset_card_of_nodup hnd]
  · intro hnd
    rw [bit_count_letter_set hw, List.card_toFinset]
    have hsub := List.dedup_sublist w
    have hle := hsub.length_le
    rcases Nat.lt_or_ge w.dedup.length w.length with h | h
    · exact h
    · exfalso
      apply hnd
      have : w.dedup = w := hsub.eq_of_length (by omega)

      rw [← this]
      exact w.nodup_dedup

/-! Facts about the anagram index. -/

theorem lookupW_nil (k : Nat) : lookupW [] k = [] := rfl

theorem lookupW_cons (e : Nat × List Word) (rest : List (Nat × List Word)) (k : Nat) :
    lookupW (e :: rest) k = if e.1 = k then e.2 else lookupW rest k := by
  by_cases h : e.1 = k
  · rw [if_pos h]
    simp only [lookupW]
    rw [List.find?_cons_of_pos _ (by simpa using h)]
    rfl
  · rw [if_neg h]
    simp only [lookupW]
    rw [List.find?_cons_of_neg _ (by simpa using h)]

theorem lookupW_addWord (m : List (Nat × List Word)) (k : Nat) (w : Word) (k' : Nat) :
    lookupW (addWord m k w) k' = lookupW m k' ++ (if k' = k then [w] else []) := by
  induction m with
  | nil =>
    show lookupW [(k, [w])] k' = _
    rw [lookupW_cons, lookupW_nil]
    by_cases h : k' = k
    · rw [if_pos h.symm, if_pos h]
      rfl
    · rw [if_neg (fun hc : k = k' => h hc.symm), if_neg h]
      rfl
  | cons e rest ih =>
    obtain ⟨k'', l⟩ := e
    by_cases h1 : k'' = k
    · subst h1
      simp only [addWord, eq_self_iff_true, if_true]
      rw [lookupW_cons, lookupW_cons]
      by_cases h2 : k'' = k'
      · rw [if_pos h2, if_pos h2, if_pos h2.symm]
      · rw [if_neg h2, if_neg h2, if_neg (fun hc : k' = k'' => h2 hc.symm),
          List.append_nil]
    · simp only [addWord, if_neg h1]
      rw [lookupW_cons, lookupW_cons]
      by_cases h2 : k'' = k'
      · rw [if_pos h2, if_pos h2,
          if_neg (fun hc : k' = k => h1 (h2.trans hc)), List.append_nil]
      · rw [if_neg h2, if_neg h2, ih]

/-- The word filter used by read_words. -/
theorem lookupW_read_words_go (stream : List Word) :
    ∀ (m : List (Nat × List Word)) (k : Nat),
    lookupW (stream.foldl
      (fun anagrams word =>
        if word.length ≠ 5 then anagrams
        else
          let char_set := letter_set word
          if bit_count char_set ≠ 5 then anagrams
          else addWord anagrams char_set word) m) k =
    lookupW m k ++ stream.filter
      (fun w => w.length == 5 && bit_count (letter_set w) == 5 && letter_set w == k) := by
  induction stream with
  | nil => intro m k; simp
  | cons w ws ih =>
    intro m k
    simp only [List.foldl_cons, List.filter_cons]
    by_cases h1 : w.length = 5
    · by_cases h2 : bit_count (letter_set w) = 5
      · rw [if_neg (by omega : ¬(w.length ≠ 5)),
          if_neg (by omega : ¬(bit_count (letter_set w) ≠ 5)),
          ih (addWord m (letter_set w) w) k, lookupW_addWord]
        by_cases h3 : letter_set w = k
        · subst h3
          simp [h1, h2]
        · simp [h1, h2, h3, Ne.symm h3]
      · rw [if_neg (by omega : ¬(w.length ≠ 5)),
          if_pos (by omega : bit_count (letter_set w) ≠ 5), ih,
          if_neg (by simp [h2])]
    · rw [if_pos (by omega : w.length ≠ 5), ih, if_neg (by simp [h1])]

/-- Shared form of the class characterization: each anagram class equals the
input-order filter of the stream for its key. -/
theorem lookupW_filter (stream : List Word) (k : Nat) :
    lookupW (read_words stream) k = stream.filter
      (fun w => w.length == 5 && bit_count (letter_set w) == 5 && letter_set w == k) := by
  rw [read_words, lookupW_read_words_go stream [] k, lookupW_nil, List.nil_append]

/-- C9: a word of the input stream lands in the anagram class of its letter
set exactly when its length is 5 and its letter set has population count 5,
and each class lists its words in input order. -/
theorem C9_read_words_filter (stream : List Word) (k : Nat) :
    lookupW (read_words stream) k = stream.filter
      (fun w => w.length == 5 && bit_count (letter_set w) == 5 && letter_set w == k) :=
  lookupW_filter stream k

/-- Witness for C9 on a concrete stream: a wrong-length word and a repeated
letter word are dropped, anagrams group together in input order. -/
theorem C9_read_words_filter_witness :
    lookupW (read_words [[97, 98, 99, 100, 101], [97, 97, 98, 99, 100],
        [97, 98, 99], [101, 100, 99, 98, 97]]) 31 =
      List.filter
        (fun w => w.length == 5 && bit_count (letter_set w) == 5 && letter_set w == 31)
        [[97, 98, 99, 100, 101], [97, 97, 98, 99, 100], [97, 98, 99],
         [101, 100, 99, 98, 97]] :=
  C9_read_words_filter _ 31

theorem keyList_addWord (m : List (Nat × List Word)) (k : Nat) (w : Word) :
    keyList (addWord m k w) =
      if k ∈ keyList m then keyList m else keyList m ++ [k] := by
  induction m with
  | nil => simp [addWord, keyList]
  | cons e rest ih =>
    obtain ⟨k'', l⟩ := e
    by_cases h1 : k'' = k
    · subst h1
      simp [addWord, keyList]
    · simp only [addWord, if_neg h1]
      have e1 : keyList ((k'', l) :: addWord rest k w) = k'' :: keyList (addWord rest k w) := rfl
      have e2 : keyList ((k'', l) :: rest) = k'' :: keyList rest := rfl
      rw [e1, e2, ih]
      by_cases h2 : k ∈ keyList rest
      · rw [if_pos h2, if_pos (List.mem_cons_of_mem _ h2)]
      · rw [if_neg h2, if_neg (by
          simp only [List.mem_cons]
          rintro (hc | hc)
          · exact h1 hc.symm
          · exact h2 hc)]
        rfl

theorem mem_keyList_addWord (m : List (Nat × List Word)) (k : Nat) (w : Word)
    (k' : Nat) : k' ∈ keyList (addWord m k w) ↔ k' ∈ keyList m ∨ k' = k := by
  rw [keyList_addWord]
  by_cases h : k ∈ keyList m
  · rw [if_pos h]
    constructor
    · exact Or.inl
    · rintro (hm | rfl)
      · exact hm
      · exact h
  · rw [if_neg h]
    simp

theorem nodup_keyList_addWord {m : List (Nat × List Word)} (k : Nat) (w : Word)
    (h : (keyList m).Nodup) : (keyList (addWord m k w)).Nodup := by
  rw [keyList_addWord]
  by_cases hm : k ∈ keyList m
  · rwa [if_pos hm]
  · rw [if_neg hm]
    simp [List.nodup_append, h, hm]

theorem mem_keyList_read_words_go (stream : List Word) :
    ∀ (m : List (Nat × List Word)) (k : Nat),
    k ∈ keyList (stream.foldl
      (fun anagrams word =>
        if word.length ≠ 5 then anagrams
        else
          let char_set := letter_set word
          if bit_count char_set ≠ 5 then anagrams
          else addWord anagrams char_set word) m) ↔
    k ∈ keyList m ∨ ∃ w ∈ stream,
      w.length = 5 ∧ bit_count (letter_set w) = 5 ∧ letter_set w = k := by
  induction stream with
  | nil => intro m k; simp
  | cons w ws ih =>
    intro m k
    simp only [List.foldl_cons]
    by_cases h1 : w.length = 5
    · by_cases h2 : bit_count (letter_set w) = 5
      · rw [if_neg (by omega : ¬(w.length ≠ 5))]
        rw [if_neg (by omega : ¬(bit_count (letter_set w) ≠ 5))]
        rw [ih (addWord m (letter_set w) w) k]
        rw [mem_keyList_addWord]
        constructor
        · rintro ((hm | rfl) | ⟨v, hv, hp⟩)
          · exact Or.inl hm
          · exact Or.inr ⟨w, List.mem_cons_self w ws, h1, h2, rfl⟩
          · exact Or.inr ⟨v, List.mem_cons_of_mem w hv, hp⟩
        · rintro (hm | ⟨v, hv, hp⟩)
          · exact Or.inl (Or.inl hm)
          · rcases List.mem_cons.1 hv with rfl | hv
            · exact Or.inl (Or.inr hp.2.2.symm)
            · exact Or.inr ⟨v, hv, hp⟩
      · rw [if_neg (by omega : ¬(w.length ≠ 5))]
        rw [if_pos (by omega : bit_count (letter_set w) ≠ 5), ih]
        constructor
        · rintro (hm | ⟨v, hv, hp⟩)
          · exact Or.inl hm
          · exact Or.inr ⟨v, List.mem_cons_of_mem w hv, hp⟩
        · rintro (hm | ⟨v, hv, hp⟩)
          · exact Or.inl hm
          · rcases List.mem_cons.1 hv with rfl | hv
            · omega
            · exact Or.inr ⟨v, hv, hp⟩
    · rw [if_pos (by omega : w.length ≠ 5), ih]
      constructor
      · rintro (hm | ⟨v, hv, hp⟩)
        · exact Or.inl hm
        · exact Or.inr ⟨v, List.mem_cons_of_mem w hv, hp⟩
      · rintro (hm | ⟨v, hv, hp⟩)
        · exact Or.inl hm
        · rcases List.mem_cons.1 hv with rfl | hv
          · omega
          · exact Or.inr ⟨v, hv, hp⟩

theorem mem_keyList_read_words (stream : List Word) (k : Nat) :
    k ∈ keyList (read_words stream) ↔ ∃ w ∈ stream,
      w.length = 5 ∧ bit_count (letter_set w) = 5 ∧ letter_set w = k := by
  rw [read_words, mem_keyList_read_words_go stream [] k]
  simp [keyList]

theorem nodup_keyList_read_words_go (stream : List Word) :
    ∀ (m : List (Nat × List Word)), (keyList m).Nodup →
    (keyList (stream.foldl
      (fun anagrams word =>
        if word.length ≠ 5 then anagrams
        else
          let char_set := letter_set word
          if bit_count char_set ≠ 5 then anagrams
          else addWord anagrams char_set word) m)).Nodup := by
  induction stream with
  | nil => intro m hm; exact hm
  | cons w ws ih =>
    intro m hm
    simp only [List.foldl_cons]
    by_cases h1 : w.length = 5
    · by_cases h2 : bit_count (letter_set w) = 5
      · rw [if_neg (by omega : ¬(w.length ≠ 5))]
        rw [if_neg (by omega : ¬(bit_count (letter_set w) ≠ 5))]
        exact ih _ (nodup_keyList_addWord _ _ hm)
      · rw [if_neg (by omega : ¬(w.length ≠ 5))]
        rw [if_pos (by omega : bit_count (letter_set w) ≠ 5)]
        exact ih _ hm
    · rw [if_pos (by omega : w.length ≠ 5)]
      exact ih _ hm

theorem nodup_keyList_read_words (stream : List Word) :
    (keyList (read_words stream)).Nodup :=
  nodup_keyList_read_words_go stream [] (by simp [keyList])

/-! Facts about the disjointness graph. -/

theorem lookupG_nil (k : Nat) : lookupG [] k = ∅ := rfl

theorem lookupG_cons (e : Nat × Finset Nat) (rest : List (Nat × Finset Nat))
    (k : Nat) : lookupG (e :: rest) k = if e.1 = k then e.2 else lookupG rest k := by
  by_cases h : e.1 = k
  · rw [if_pos h]
    simp only [lookupG]
    rw [List.find?_cons_of_pos _ (by simpa using h)]
    rfl
  · rw [if_neg h]
    simp only [lookupG]
    rw [List.find?_cons_of_neg _ (by simpa using h)]

theorem mem_lookupG_ngAux : ∀ (l : List Nat), l.Pairwise (· < ·) →
    ∀ A B : Nat, (B ∈ lookupG (ngAux l) A ↔ A ∈ l ∧ B ∈ l ∧ A &&& B = 0 ∧ A < B) := by
  intro l
  induction l with
  | nil => intro _ A B; simp [ngAux, lookupG_nil]
  | cons c rest ih =>
    intro hp A B
    have hc : ∀ x ∈ rest, c < x := fun x hx => List.rel_of_pairwise_cons hp hx
    have hrest : rest.Pairwise (· < ·) := List.Pairwise.of_cons hp
    rw [ngAux, lookupG_cons]
    by_cases h : c = A
    · subst h
      rw [if_pos rfl]
      simp only [List.mem_toFinset, List.mem_filter, beq_iff_eq]
      constructor
      · rintro ⟨hB, hd⟩
        exact ⟨List.mem_cons_self c rest, List.mem_cons_of_mem c hB, hd, hc B hB⟩
      · rintro ⟨_, hB, hd, hlt⟩
        rcases List.mem_cons.1 hB with rfl | hB
        · omega
        · exact ⟨hB, hd⟩
    · rw [if_neg h]
      rw [ih hrest A B]
      constructor
      · rintro ⟨hA, hB, hd, hlt⟩
        exact ⟨List.mem_cons_of_mem c hA, List.mem_cons_of_mem c hB, hd, hlt⟩
      · rintro ⟨hA, hB, hd, hlt⟩
        have hA' : A ∈ rest := by
          rcases List.mem_cons.1 hA with he | hm
          · exact absurd he.symm h
          · exact hm
        have hB' : B ∈ rest := by
          rcases List.mem_cons.1 hB with he | hm
          · exfalso
            have := hc A hA'
            rw [he] at hlt
            omega
          · exact hm
        exact ⟨hA', hB', hd, hlt⟩

theorem sortedKeys_pairwise (anagrams : List (Nat × List Word))
    (h : (keyList anagrams).Nodup) : (sortedKeys anagrams).Pairwise (· < ·) := by
  have hs : List.Sorted (· ≤ ·) (sortedKeys anagrams) :=
    List.sorted_insertionSort (· ≤ ·) (keyList anagrams)
  have hperm : List.Perm (sortedKeys anagrams) (keyList anagrams) :=
    List.perm_insertionSort (· ≤ ·) (keyList anagrams)
  have hnd : (sortedKeys anagrams).Nodup := hperm.nodup_iff.2 h
  have := List.Pairwise.and hs hnd
  exact this.imp (fun h => lt_of_le_of_ne h.1 h.2)

theorem mem_sortedKeys (anagrams : List (Nat × List Word)) (k : Nat) :
    k ∈ sortedKeys anagrams ↔ k ∈ keyList anagrams :=
  (List.perm_insertionSort (· ≤ ·) (keyList anagrams)).mem_iff

/-- C7: the built graph has an edge from A to B exactly when A and B are both
index keys, they share no letter, and A is numerically below B; in particular
every neighbor of A is disjoint from A and strictly greater. -/
theorem C7_neighbor_graph_edges (stream : List Word) (A B : Nat) :
    B ∈ lookupG (neighbor_graph (read_words stream)) A ↔
      A ∈ keyList (read_words stream) ∧ B ∈ keyList (read_words stream) ∧
      A &&& B = 0 ∧ A < B := by
  rw [neighbor_graph,
    mem_lookupG_ngAux _ (sortedKeys_pairwise _ (nodup_keyList_read_words stream)),
    mem_sortedKeys, mem_sortedKeys]

/-! Facts about untangle_words. -/

theorem bigU_nil (u : Nat) : bigU u [] = u := rfl

theorem bigU_cons (u c : Nat) (cs : List Nat) : bigU u (c :: cs) = bigU (u ||| c) cs := rfl

theorem runningUnions_append_last (cs : List Nat) : ∀ (u0 c : Nat),
    runningUnions u0 (cs ++ [c]) = runningUnions u0 cs ++ [bigU u0 cs ||| c] := by
  induction cs with
  | nil => intro u0 c; simp [runningUnions, bigU_nil]
  | cons d cs ih =>
    intro u0 c
    simp only [List.cons_append, runningUnions, bigU_cons, List.append_eq]
    rw [ih (u0 ||| d) c]

theorem untangleGo_runningUnions : ∀ (cs : List Nat) (u0 remain : Nat),
    (∀ c ∈ cs, c &&& ALL_LETTERS = c) →
    cs.Pairwise (fun a b => a &&& b = 0) →
    (∀ c ∈ cs, c &&& u0 = 0) →
    remain ||| u0 = ALL_LETTERS → remain &&& u0 = 0 →
    untangleGo remain (runningUnions u0 cs) = cs := by
  intro cs
  induction cs with
  | nil => intro u0 remain _ _ _ _ _; rfl
  | cons c cs ih =>
    intro u0 remain hall hpair hdis hor hand
    have hcall : c &&& ALL_LETTERS = c := hall c (List.mem_cons_self c cs)
    have hcu0 : c &&& u0 = 0 := hdis c (List.mem_cons_self c cs)
    have hcrem : c &&& remain = c := by
      apply Nat.eq_of_testBit_eq
      intro i
      rw [Nat.testBit_and]
      cases hci : c.testBit i with
      | false => simp
      | true =>
        have hai : ALL_LETTERS.testBit i = true := subset_testBit hcall hci
        have hui : u0.testBit i = false := disj_testBit hcu0 hci
        have := congrArg (fun x => x.testBit i) hor
        simp only [Nat.testBit_or, hui, Bool.or_false] at this
        rw [this, hai]
        rfl
    have hw : (u0 ||| c) &&& remain = c := by
      rw [Nat.and_distrib_right, hcrem]
      have hu0rem : u0 &&& remain = 0 := by
        rw [Nat.and_comm]
        exact hand
      rw [hu0rem, Nat.zero_or]
    have hsub : c &&& remain = c := hcrem
    have hremsub : remain - c = remain ^^^ c := sub_eq_xor_of_subset hsub
    show untangleGo remain ((u0 ||| c) :: runningUnions (u0 ||| c) cs) = c :: cs
    simp only [untangleGo]
    rw [hw, hremsub]
    congr 1
    apply ih (u0 ||| c) (remain ^^^ c)
    · intro d hd
      exact hall d (List.mem_cons_of_mem c hd)
    · exact List.Pairwise.of_cons hpair
    · intro d hd
      have hdc : c &&& d = 0 := List.rel_of_pairwise_cons hpair hd
      have hdu0 : d &&& u0 = 0 := hdis d (List.mem_cons_of_mem c hd)
      rw [Nat.and_or_distrib_left, hdu0, Nat.zero_or, Nat.and_comm]
      exact hdc
    · apply Nat.eq_of_testBit_eq
      intro i
      have horₜ := congrArg (fun x => x.testBit i) hor
      simp only [Nat.testBit_or] at horₜ
      simp only [Nat.testBit_or, Nat.testBit_xor]
      cases hci : c.testBit i with
      | false =>
        simp only [Bool.xor_false, Bool.or_false] at horₜ ⊢
        exact horₜ
      | true =>
        have hri : remain.testBit i = true := subset_testBit hsub hci
        have hai : ALL_LETTERS.testBit i = true := subset_testBit hcall hci
        rw [hri, hai]
        simp
    · apply Nat.eq_of_testBit_eq
      intro i
      have handₜ := congrArg (fun x => x.testBit i) hand
      simp only [Nat.testBit_and, Nat.zero_testBit] at handₜ
      simp only [Nat.testBit_and, Nat.testBit_or, Nat.testBit_xor, Nat.zero_testBit]
      cases hci : c.testBit i with
      | false =>
        simp only [Bool.xor_false]
        cases hri : remain.testBit i with
        | false => rfl
        | true =>
          rw [hri] at handₜ
          simp only [Bool.true_and] at handₜ
          rw [handₜ]
          rfl
      | true =>
        have hri : remain.testBit i = true := subset_testBit hsub hci
        rw [hri]
        simp

/-- Renamed core of the untangle round trip, shared by several results. -/
theorem untangle_chain (chosen : List Nat) (c : Nat)
    (hall : ∀ x ∈ chosen ++ [c], x &&& ALL_LETTERS = x)
    (hpair : (chosen ++ [c]).Pairwise (fun a b => a &&& b = 0)) :
    untangle_words ((c ||| bigU 0 chosen) :: (runningUnions 0 chosen).reverse) =
      chosen ++ [c] := by
  rw [untangle_words]
  have hrev : ((c ||| bigU 0 chosen) :: (runningUnions 0 chosen).reverse).reverse =
      runningUnions 0 (chosen ++ [c]) := by
    rw [List.reverse_cons, List.reverse_reverse, runningUnions_append_last,
      Nat.or_comm]
  rw [hrev]
  apply untangleGo_runningUnions (chosen ++ [c]) 0 ALL_LETTERS hall hpair
  · intro d _
    exact Nat.and_zero d
  · exact Nat.or_zero ALL_LETTERS
  · exact Nat.and_zero ALL_LETTERS

/-- C6: the word tuple appended in the base case equals the chosen letter sets
followed by the completing candidate: untangle_words inverts the running
unions for any pairwise disjoint chain of alphabet letter sets. -/
theorem C6_untangle_round_trip (chosen : List Nat) (c : Nat)
    (hall : ∀ x ∈ chosen ++ [c], x &&& ALL_LETTERS = x)
    (hpair : (chosen ++ [c]).Pairwise (fun a b => a &&& b = 0)) :
    untangle_words ((c ||| bigU 0 chosen) :: (runningUnions 0 chosen).reverse) =
      chosen ++ [c] :=
  untangle_chain chosen c hall hpair

/-- Witness for C6 on a concrete two-element chain plus candidate. -/
theorem C6_untangle_round_trip_witness :
    (∀ x ∈ ([31, 992] ++ [31744] : List Nat), x &&& ALL_LETTERS = x) ∧
    (([31, 992] ++ [31744] : List Nat).Pairwise (fun a b => a &&& b = 0)) ∧
    untangle_words ((31744 ||| bigU 0 [31, 992]) :: (runningUnions 0 [31, 992]).reverse) =
      [31, 992] ++ [31744] :=
  ⟨by decide, by decide,
    C6_untangle_round_trip [31, 992] 31744 (by decide) (by decide)⟩

/-! Facts about candidate sets and chains. -/

theorem and_or_self_left (a b : Nat) : a &&& (a ||| b) = a := by
  apply Nat.eq_of_testBit_eq
  intro i
  rw [Nat.testBit_and, Nat.testBit_or]
  cases a.testBit i <;> simp

theorem and_or_self_right (a b : Nat) : b &&& (a ||| b) = b := by
  rw [Nat.or_comm]
  exact and_or_self_left b a

theorem sub_and_trans {a b c : Nat} (h1 : a &&& b = a) (h2 : b &&& c = b) :
    a &&& c = a := by
  calc a &&& c = (a &&& b) &&& c := by rw [h1]
    _ = a &&& (b &&& c) := Nat.and_assoc a b c
    _ = a &&& b := by rw [h2]
    _ = a := h1

theorem or_eq_zero_left {a b : Nat} (h : a ||| b = 0) : a = 0 :=
  Nat.le_zero.1 (h ▸ nat_le_or_left a b)

theorem or_eq_zero_right {a b : Nat} (h : a ||| b = 0) : b = 0 :=
  Nat.le_zero.1 (h ▸ nat_le_or_right a b)

theorem keys_pos {keys : Finset Nat} (hk : KeysOK keys) {k : Nat}
    (h : k ∈ keys) : 0 < k := by
  rcases Nat.eq_zero_or_pos k with rfl | hp
  · have := (hk 0 h).1
    rw [bit_count_zero] at this
    omega
  · exact hp

theorem mem_cand {keys : Finset Nat} {u x : Nat} :
    x ∈ cand keys u ↔ x ∈ keys ∧ u &&& x = 0 ∧ u < x := by
  rw [cand, Finset.mem_filter]

theorem cand_subset_keys (keys : Finset Nat) (u : Nat) : cand keys u ⊆ keys :=
  Finset.filter_subset _ keys

theorem cand_zero {keys : Finset Nat} (hk : KeysOK keys) : cand keys 0 = keys := by
  ext x
  rw [mem_cand]
  constructor
  · exact fun h => h.1
  · intro h
    exact ⟨h, Nat.zero_and x, keys_pos hk h⟩

theorem cand_or_mono {keys : Finset Nat} {u c x : Nat} (h : x ∈ cand keys (u ||| c)) :
    x ∈ cand keys u := by
  rw [mem_cand] at h ⊢
  obtain ⟨hx, hd, hlt⟩ := h
  refine ⟨hx, ?_, ?_⟩
  · rw [Nat.and_distrib_right] at hd
    exact or_eq_zero_left hd
  · exact Nat.lt_of_le_of_lt (nat_le_or_left u c) hlt

theorem cand_or {keys : Finset Nat} (hk : KeysOK keys) {u c : Nat}
    (hc : c ∈ cand keys u) : cand keys (u ||| c) = cand keys u ∩ cand keys c := by
  ext x
  rw [Finset.mem_inter, mem_cand, mem_cand, mem_cand]
  constructor
  · rintro ⟨hx, hd, hlt⟩
    rw [Nat.and_distrib_right] at hd
    refine ⟨⟨hx, or_eq_zero_left hd, Nat.lt_of_le_of_lt (nat_le_or_left u c) hlt⟩,
      hx, or_eq_zero_right hd, Nat.lt_of_le_of_lt (nat_le_or_right u c) hlt⟩
  · rintro ⟨⟨hx, hdu, hltu⟩, _, hdc, hltc⟩
    refine ⟨hx, ?_, ?_⟩
    · rw [Nat.and_distrib_right, hdu, hdc]
      rfl
    · have hx0 : x ≠ 0 := Nat.pos_iff_ne_zero.1 (keys_pos hk hx)
      exact or_lt_of_disj hx0 (Nat.and_comm u x ▸ hdu) (Nat.and_comm c x ▸ hdc)
        hltu hltc

theorem chainB_nil (keys : Finset Nat) (u : Nat) : chainB keys u [] = true := rfl

theorem chainB_cons {keys : Finset Nat} {u c : Nat} {L : List Nat} :
    chainB keys u (c :: L) = true ↔
      c ∈ cand keys u ∧ chainB keys (u ||| c) L = true := by
  show (decide (c ∈ cand keys u) && chainB keys (u ||| c) L) = true ↔ _
  rw [Bool.and_eq_true, decide_eq_true_eq]

theorem chain_forall {keys : Finset Nat} {u : Nat} {L : List Nat}
    (h : chainB keys u L = true) : ∀ x ∈ L, x ∈ cand keys u := by
  induction L generalizing u with
  | nil => intro x hx; cases hx
  | cons c L ih =>
    obtain ⟨hc, htail⟩ := chainB_cons.1 h
    intro x hx
    rcases List.mem_cons.1 hx with rfl | hx
    · exact hc
    · exact cand_or_mono (ih htail x hx)

theorem chain_pairwise {keys : Finset Nat} {u : Nat} {L : List Nat}
    (h : chainB keys u L = true) :
    L.Pairwise (fun a b => a &&& b = 0 ∧ a < b) := by
  induction L generalizing u with
  | nil => exact List.Pairwise.nil
  | cons c L ih =>
    obtain ⟨hc, htail⟩ := chainB_cons.1 h
    refine List.Pairwise.cons ?_ (ih htail)
    intro x hx
    have hxc := chain_forall htail x hx
    rw [mem_cand] at hxc
    obtain ⟨_, hd, hlt⟩ := hxc
    rw [Nat.and_distrib_right] at hd
    exact ⟨or_eq_zero_right hd, Nat.lt_of_le_of_lt (nat_le_or_right u c) hlt⟩

theorem chain_nodup {keys : Finset Nat} {u : Nat} {L : List Nat}
    (h : chainB keys u L = true) : L.Nodup :=
  (chain_pairwise h).imp (fun hab => Nat.ne_of_lt hab.2)

theorem chain_length_le_card {keys : Finset Nat} {u : Nat} {L : List Nat}
    (h : chainB keys u L = true) : L.length ≤ (cand keys u).card := by
  have hsub : L.toFinset ⊆ cand keys u := by
    intro x hx
    exact chain_forall h x (List.mem_toFinset.1 hx)
  calc L.length = L.toFinset.card := (List.toFinset_card_of_nodup (chain_nodup h)).symm
    _ ≤ (cand keys u).card := Finset.card_le_card hsub

theorem chain_append {keys : Finset Nat} {u : Nat} {L1 L2 : List Nat} :
    chainB keys u (L1 ++ L2) = true ↔
      chainB keys u L1 = true ∧ chainB keys (bigU u L1) L2 = true := by
  induction L1 generalizing u with
  | nil => simp [chainB_nil, bigU_nil]
  | cons c L1 ih =>
    rw [List.cons_append, chainB_cons, chainB_cons, ih, bigU_cons, and_assoc]

theorem bigU_append (u : Nat) (L1 L2 : List Nat) :
    bigU u (L1 ++ L2) = bigU (bigU u L1) L2 := by
  rw [bigU, bigU, bigU, List.foldl_append]

theorem bigU_snoc (u : Nat) (L : List Nat) (c : Nat) :
    bigU u (L ++ [c]) = bigU u L ||| c := by
  rw [bigU_append]
  rfl

theorem bigU_upper (u : Nat) (L : List Nat) : u &&& bigU u L = u := by
  induction L generalizing u with
  | nil => exact Nat.and_self u
  | cons c L ih =>
    rw [bigU_cons]
    exact sub_and_trans (and_or_self_left u c) (ih (u ||| c))

theorem subset_bigU {keys : Finset Nat} {u : Nat} {L : List Nat}
    (h : chainB keys u L = true) : ∀ x ∈ L, x &&& bigU u L = x := by
  induction L generalizing u with
  | nil => intro x hx; cases hx
  | cons c L ih =>
    obtain ⟨_, htail⟩ := chainB_cons.1 h
    intro x hx
    rw [bigU_cons]
    rcases List.mem_cons.1 hx with rfl | hx
    · exact sub_and_trans (and_or_self_right u x) (bigU_upper (u ||| x) L)
    · exact ih htail x hx

theorem chain_bits {keys : Finset Nat} (hk : KeysOK keys) {u : Nat} {L : List Nat}
    (h : chainB keys u L = true) (hu : u &&& ALL_LETTERS = u) :
    bigU u L &&& ALL_LETTERS = bigU u L ∧
    bit_count (bigU u L) = bit_count u + 5 * L.length := by
  induction L generalizing u with
  | nil => simp [bigU_nil, hu]
  | cons c L ih =>
    obtain ⟨hc, htail⟩ := chainB_cons.1 h
    rw [mem_cand] at hc
    obtain ⟨hck, hcd, _⟩ := hc
    have hc5 := (hk c hck).1
    have hcall := (hk c hck).2
    have horall : (u ||| c) &&& ALL_LETTERS = u ||| c := by
      rw [Nat.and_distrib_right, hu, hcall]
    have hbc : bit_count (u ||| c) = bit_count u + 5 := by
      rw [bit_count_or_disj hcd, hc5]
    obtain ⟨hall2, hcount⟩ := ih htail horall
    rw [bigU_cons]
    refine ⟨hall2, ?_⟩
    rw [hcount, hbc, List.length_cons]
    ring

theorem dead_iff {keys : Finset Nat} (hk : KeysOK keys) {cs : List Nat}
    (h : chainB keys 0 cs = true) :
    (PruneDead keys (bigU 0 cs) ↔
      ¬∃ L, chainB keys (bigU 0 cs) L = true ∧ cs.length + L.length = 5) := by
  rw [PruneDead]
  constructor
  · intro hnd ⟨L, hL, hlen⟩
    apply hnd
    refine ⟨L, hL, ?_⟩
    have hchain : chainB keys 0 (cs ++ L) = true := chain_append.2 ⟨h, hL⟩
    have := (chain_bits hk hchain (Nat.zero_and ALL_LETTERS)).2
    rw [bit_count_zero, bigU_append] at this
    rw [this, List.length_append]
    omega
  · intro hno ⟨L, hL, hbc⟩
    apply hno
    refine ⟨L, hL, ?_⟩
    have hchain : chainB keys 0 (cs ++ L) = true := chain_append.2 ⟨h, hL⟩
    have := (chain_bits hk hchain (Nat.zero_and ALL_LETTERS)).2
    rw [bit_count_zero, bigU_append, hbc, List.length_append] at this
    omega

theorem runningUnions_length (cs : List Nat) : ∀ u0 : Nat,
    (runningUnions u0 cs).length = cs.length := by
  induction cs with
  | nil => intro u0; rfl
  | cons c cs ih =>
    intro u0
    rw [runningUnions, List.length_cons, List.length_cons, ih]

theorem runningUnions_reverse_head {cs : List Nat} (u0 : Nat) (h : cs ≠ []) :
    ∃ tl, (runningUnions u0 cs).reverse = bigU u0 cs :: tl := by
  rcases List.eq_nil_or_concat cs with rfl | ⟨L, c, rfl⟩
  · exact absurd rfl h
  · rw [List.concat_eq_append, runningUnions_append_last, List.reverse_append,
      bigU_snoc]
    exact ⟨(runningUnions u0 L).reverse, rfl⟩

theorem chain_of_forall_pairwise {keys : Finset Nat} (hk : KeysOK keys) :
    ∀ (L : List Nat) (u : Nat),
    (∀ x ∈ L, x ∈ keys ∧ u &&& x = 0 ∧ u < x) →
    L.Pairwise (fun a b => a &&& b = 0 ∧ a < b) → chainB keys u L = true := by
  intro L
  induction L with
  | nil => intro u _ _; rfl
  | cons c L ih =>
    intro u hall hpair
    rw [chainB_cons]
    obtain ⟨hck, hcd, hclt⟩ := hall c (List.mem_cons_self c L)
    refine ⟨mem_cand.2 ⟨hck, hcd, hclt⟩, ?_⟩
    apply ih (u ||| c)
    · intro x hx
      obtain ⟨hxk, hxd, hxlt⟩ := hall x (List.mem_cons_of_mem c hx)
      obtain ⟨hcx, hcxlt⟩ := List.rel_of_pairwise_cons hpair hx
      refine ⟨hxk, ?_, ?_⟩
      · rw [Nat.and_distrib_right, hxd, hcx]
        rfl
      · have hx0 : x ≠ 0 := Nat.pos_iff_ne_zero.1 (keys_pos hk hxk)
        exact or_lt_of_disj hx0 (Nat.and_comm u x ▸ hxd) (Nat.and_comm c x ▸ hcx)
          hxlt hcxlt
    · exact List.Pairwise.of_cons hpair

/-! Facts about the search recursion. -/

theorem merge_zero (graph : Nat → Finset Nat) (ordF : Finset Nat → List Nat)
    (lw : Nat) (ws : List Nat) (ns : Finset Nat) (st : MState) :
    merge graph ordF 0 lw ws ns st = (false, st) := rfl

theorem merge_succ (graph : Nat → Finset Nat) (ordF : Finset Nat → List Nat)
    (fuel lw : Nat) (ws : List Nat) (ns : Finset Nat) (st : MState) :
    merge graph ordF (fuel + 1) lw ws ns st =
      if ns.card + (ws.length + 1) < TOTAL_LENGTH then (false, st)
      else if ws.length + 1 = TOTAL_LENGTH_MINUS_ONE then
        (true, ⟨st.prune, st.cliques ++ (ordF ns).map (fun neighbor_word =>
          untangle_words ((neighbor_word ||| lw) :: lw :: ws))⟩)
      else
        (ordF ns).foldl (mergeStep graph (merge graph ordF fuel) lw ws ns)
          (false, st) := rfl

/-- C5: at depth four the search reports success exactly when the candidate
set is non-empty; an empty candidate set is rejected by the bound check. -/
theorem C5_base_case (graph : Nat → Finset Nat) (ordF : Finset Nat → List Nat)
    (fuel lw : Nat) (ws : List Nat) (ns : Finset Nat) (st : MState)
    (hws : ws.length = 3) (hf : 1 ≤ fuel) :
    ((merge graph ordF fuel lw ws ns st).1 = true ↔ ns.Nonempty) := by
  obtain ⟨f, rfl⟩ : ∃ f, fuel = f + 1 := ⟨fuel - 1, by omega⟩
  rw [merge_succ, hws]
  by_cases hcard : ns.card + (3 + 1) < TOTAL_LENGTH
  · rw [if_pos hcard]
    have hc0 : ns.card = 0 := by
      rw [TOTAL_LENGTH] at hcard
      omega
    constructor
    · intro h
      exact Bool.noConfusion h
    · intro h
      exact absurd (Finset.card_pos.2 h) (by omega)
  · rw [if_neg hcard, if_pos (by rw [TOTAL_LENGTH_MINUS_ONE])]
    have hpos : 0 < ns.card := by
      rw [TOTAL_LENGTH] at hcard
      omega
    constructor
    · intro _
      exact Finset.card_pos.1 hpos
    · intro _
      rfl

theorem merge_fuel_stable_aux : ∀ (k : Nat) (graph : Nat → Finset Nat)
    (ordF : Finset Nat → List Nat) (f1 f2 lw : Nat) (ws : List Nat)
    (ns : Finset Nat) (st : MState), ws.length + k = 3 → k < f1 → k < f2 →
    merge graph ordF f1 lw ws ns st = merge graph ordF f2 lw ws ns st := by
  intro k
  induction k with
  | zero =>
    intro graph ordF f1 f2 lw ws ns st hws h1 h2
    obtain ⟨g1, rfl⟩ : ∃ g, f1 = g + 1 := ⟨f1 - 1, by omega⟩
    obtain ⟨g2, rfl⟩ : ∃ g, f2 = g + 1 := ⟨f2 - 1, by omega⟩
    rw [merge_succ, merge_succ]
    have hnum : ws.length + 1 = TOTAL_LENGTH_MINUS_ONE := by
      rw [TOTAL_LENGTH_MINUS_ONE]
      omega
    by_cases hb : ns.card + (ws.length + 1) < TOTAL_LENGTH
    · rw [if_pos hb, if_pos hb]
    · rw [if_neg hb, if_neg hb, if_pos hnum, if_pos hnum]
  | succ k ih =>
    intro graph ordF f1 f2 lw ws ns st hws h1 h2
    obtain ⟨g1, rfl⟩ : ∃ g, f1 = g + 1 := ⟨f1 - 1, by omega⟩
    obtain ⟨g2, rfl⟩ : ∃ g, f2 = g + 1 := ⟨f2 - 1, by omega⟩
    rw [merge_succ, merge_succ]
    by_cases hb : ns.card + (ws.length + 1) < TOTAL_LENGTH
    · rw [if_pos hb, if_pos hb]
    · rw [if_neg hb, if_neg hb]
      by_cases hnum : ws.length + 1 = TOTAL_LENGTH_MINUS_ONE
      · rw [if_pos hnum, if_pos hnum]
      · rw [if_neg hnum, if_neg hnum]
        have hstep : ∀ (l : List Nat) (acc : Bool × MState),
            l.foldl (mergeStep graph (merge graph ordF g1) lw ws ns) acc =
            l.foldl (mergeStep graph (merge graph ordF g2) lw ws ns) acc := by
          intro l
          induction l with
          | nil => intro acc; rfl
          | cons c l ihl =>
            intro acc
            rw [List.foldl_cons, List.foldl_cons]
            have hone : mergeStep graph (merge graph ordF g1) lw ws ns acc c =
                mergeStep graph (merge graph ordF g2) lw ws ns acc c := by
              simp only [mergeStep]
              rw [ih graph ordF g1 g2 (lw ||| c) (lw :: ws)
                  (ns ∩ graph c) acc.2 (by simp; omega) (by omega) (by omega)]
            rw [hone, ihl]
        exact hstep (ordF ns) (false, st)

/-- C10: the recursion terminates within the fixed depth: any fuel of at
least TOTAL_LENGTH minus the current depth computes the same result (so fuel
TOTAL_LENGTH suffices from the top), and each recursive call receives a
candidate set that is a strict subset of the parent one. -/
theorem C10_termination (keys : Finset Nat) (graph : Nat → Finset Nat)
    (hg : GraphOK keys graph) :
    (∀ (ordF : Finset Nat → List Nat) (f1 f2 lw : Nat) (ws : List Nat)
      (ns : Finset Nat) (st : MState), ws.length ≤ 3 →
      TOTAL_LENGTH - (ws.length + 1) ≤ f1 → TOTAL_LENGTH - (ws.length + 1) ≤ f2 →
      merge graph ordF f1 lw ws ns st = merge graph ordF f2 lw ws ns st) ∧
    (∀ u c, c ∈ cand keys u → cand keys u ∩ graph c ⊂ cand keys u) := by
  constructor
  · intro ordF f1 f2 lw ws ns st hws h1 h2
    apply merge_fuel_stable_aux (3 - ws.length) graph ordF f1 f2 lw ws ns st
    · omega
    · rw [TOTAL_LENGTH] at h1
      omega
    · rw [TOTAL_LENGTH] at h2
      omega
  · intro u c hc
    have hck : c ∈ keys := Finset.mem_filter.1 hc |>.1
    rw [Finset.ssubset_iff_of_subset (Finset.inter_subset_left)]
    refine ⟨c, hc, ?_⟩
    intro hmem
    have := Finset.mem_inter.1 hmem |>.2
    rw [hg c hck] at this
    have := Finset.mem_filter.1 this |>.2
    omega

/-- Full specification of a merge call whose candidate set is the canonical
candidate set of the union of the chosen chain: the prune cache stays sound
and only grows, success is reported exactly when the partial clique extends
to a full one, the appended cliques are exactly the extensions of the chosen
chain, and every directly failing child union is recorded in the cache. -/
theorem merge_spec (keys : Finset Nat) (graph : Nat → Finset Nat)
    (ordF : Finset Nat → List Nat) (hk : KeysOK keys) (hg : GraphOK keys graph)
    (ho : OrdOn keys ordF) :
    ∀ (fuel : Nat) (cs : List Nat) (st : MState),
      chainB keys 0 cs = true → cs ≠ [] → cs.length ≤ 4 → 5 ≤ cs.length + fuel →
      PruneSound keys st.prune →
      ∀ (u : Nat) (ws : List Nat), u :: ws = (runningUnions 0 cs).reverse →
      PruneSound keys (merge graph ordF fuel u ws (cand keys u) st).2.prune ∧
      st.prune ⊆ (merge graph ordF fuel u ws (cand keys u) st).2.prune ∧
      ((merge graph ordF fuel u ws (cand keys u) st).1 = true ↔
        ∃ L, chainB keys u L = true ∧ cs.length + L.length = 5) ∧
      (∃ new, (merge graph ordF fuel u ws (cand keys u) st).2.cliques =
          st.cliques ++ new ∧ new.Nodup ∧
        (∀ t, t ∈ new ↔ ∃ L, chainB keys u L = true ∧
          cs.length + L.length = 5 ∧ t = cs ++ L)) ∧
      (cs.length ≤ 3 → ¬((cand keys u).card + cs.length < 5) →
        ∀ c ∈ cand keys u,
          (¬∃ L, chainB keys (u ||| c) L = true ∧ cs.length + 1 + L.length = 5) →
          (u ||| c) ∈ (merge graph ordF fuel u ws (cand keys u) st).2.prune) := by
  intro fuel
  induction fuel with
  | zero =>
    intro cs st _ _ hlen hfuel _ u ws _
    exfalso
    omega
  | succ f ihf =>
    intro cs st hchain hne hlen hfuel hps u ws hrep
    have hulast : u = bigU 0 cs := by
      obtain ⟨tl, htl⟩ := runningUnions_reverse_head 0 hne
      rw [htl] at hrep
      exact (List.cons_eq_cons.1 hrep).1
    have hws : ws.length + 1 = cs.length := by
      have := congrArg List.length hrep
      rw [List.length_cons, List.length_reverse, runningUnions_length] at this
      omega
    rw [merge_succ]
    simp only [TOTAL_LENGTH, TOTAL_LENGTH_MINUS_ONE]
    rw [hws]
    by_cases hb : (cand keys u).card + cs.length < 5
    · rw [if_pos hb]
      have hnoL : ¬∃ L, chainB keys u L = true ∧ cs.length + L.length = 5 := by
        rintro ⟨L, hL, hlen5⟩
        have := chain_length_le_card hL
        omega
      refine ⟨hps, Finset.Subset.refl _, ?_, ⟨[], by simp, List.nodup_nil, ?_⟩, ?_⟩
      · constructor
        · intro hcontr
          exact Bool.noConfusion hcontr
        · intro h
          exact absurd h hnoL
      · intro t
        simp only [List.not_mem_nil, false_iff]
        rintro ⟨L, hL, hlen5, _⟩
        exact hnoL ⟨L, hL, hlen5⟩
      · intro _ hb2
        exact absurd hb hb2
    · rw [if_neg hb]
      by_cases hbase : cs.length = 4
      · rw [if_pos hbase]
        have hordn : (ordF (cand keys u)).Nodup :=
          (ho _ (cand_subset_keys keys u)).1
        have hordt : (ordF (cand keys u)).toFinset = cand keys u :=
          (ho _ (cand_subset_keys keys u)).2
        have hmemord : ∀ c : Nat, c ∈ ordF (cand keys u) ↔ c ∈ cand keys u := by
          intro c
          conv_rhs => rw [← hordt]
          rw [List.mem_toFinset]
        have huntangle : ∀ c ∈ cand keys u,
            untangle_words ((c ||| u) :: u :: ws) = cs ++ [c] := by
          intro c hc
          have harg : (c ||| u) :: u :: ws =
              (c ||| bigU 0 cs) :: (runningUnions 0 cs).reverse := by
            rw [← hrep, ← hulast]
          rw [harg]
          apply untangle_chain
          · intro x hx
            rcases List.mem_append.1 hx with hx | hx
            · have hxc := chain_forall hchain x hx
              exact (hk x (cand_subset_keys keys 0 hxc)).2
            · rw [List.mem_singleton.1 hx]
              exact (hk c (cand_subset_keys keys u hc)).2
          · apply List.pairwise_append.2
            refine ⟨(chain_pairwise hchain).imp (fun h => h.1),
              List.pairwise_singleton _ _, ?_⟩
            intro a ha b hb'
            rw [List.mem_singleton.1 hb']
            have hsub : a &&& u = a := by
              have := subset_bigU hchain a ha
              rwa [← hulast] at this
            have hcd : u &&& c = 0 := (mem_cand.1 hc).2.1
            calc a &&& c = (a &&& u) &&& c := by rw [hsub]
              _ = a &&& (u &&& c) := Nat.and_assoc _ _ _
              _ = a &&& 0 := by rw [hcd]
              _ = 0 := Nat.and_zero a
        have hmap : (ordF (cand keys u)).map (fun neighbor_word =>
            untangle_words ((neighbor_word ||| u) :: u :: ws)) =
            (ordF (cand keys u)).map (fun c => cs ++ [c]) := by
          apply List.map_congr_left
          intro c hc
          exact huntangle c ((hmemord c).1 hc)
        refine ⟨hps, Finset.Subset.refl _, ?_, ?_, ?_⟩
        · constructor
          · intro _
            have hcard : 0 < (cand keys u).card := by omega
            obtain ⟨c, hc⟩ := Finset.card_pos.1 hcard
            refine ⟨[c], ?_, by simp [hbase]⟩
            exact chainB_cons.2 ⟨hc, rfl⟩
          · intro _
            rfl
        · refine ⟨(ordF (cand keys u)).map (fun c => cs ++ [c]), ?_, ?_, ?_⟩
          · show st.cliques ++ _ = _
            rw [hmap]
          · apply List.Nodup.map _ hordn
            intro c1 c2 he
            have := List.append_cancel_left he
            exact List.singleton_injective this
          · intro t
            rw [List.mem_map]
            constructor
            · rintro ⟨c, hc, rfl⟩
              refine ⟨[c], chainB_cons.2 ⟨(hmemord c).1 hc, rfl⟩, by simp [hbase], rfl⟩
            · rintro ⟨L, hL, hlen5, rfl⟩
              have hL1 : L.length = 1 := by omega
              obtain ⟨c, rfl⟩ := List.length_eq_one.1 hL1
              obtain ⟨hc, _⟩ := chainB_cons.1 hL
              exact ⟨c, (hmemord c).2 hc, rfl⟩
        · intro h3
          omega
      · rw [if_neg hbase]
        have hcs3 : cs.length ≤ 3 := by omega
        have loop : ∀ l : List Nat, (∀ c ∈ l, c ∈ cand keys u) → l.Nodup →
            ∀ (b0 : Bool) (st0 : MState), PruneSound keys st0.prune →
            PruneSound keys (l.foldl
              (mergeStep graph (merge graph ordF f) u ws (cand keys u))
              (b0, st0)).2.prune ∧
            st0.prune ⊆ (l.foldl
              (mergeStep graph (merge graph ordF f) u ws (cand keys u))
              (b0, st0)).2.prune ∧
            ((l.foldl (mergeStep graph (merge graph ordF f) u ws (cand keys u))
              (b0, st0)).1 = true ↔ (b0 = true ∨ ∃ c ∈ l, ∃ L,
                chainB keys (u ||| c) L = true ∧ cs.length + 1 + L.length = 5)) ∧
            (∃ new, (l.foldl
                (mergeStep graph (merge graph ordF f) u ws (cand keys u))
                (b0, st0)).2.cliques = st0.cliques ++ new ∧ new.Nodup ∧
              (∀ t, t ∈ new ↔ ∃ c ∈ l, ∃ L,
                chainB keys (u ||| c) L = true ∧ cs.length + 1 + L.length = 5 ∧
                t = cs ++ c :: L)) ∧
            (∀ c ∈ l, (¬∃ L, chainB keys (u ||| c) L = true ∧
                cs.length + 1 + L.length = 5) →
              (u ||| c) ∈ (l.foldl
                (mergeStep graph (merge graph ordF f) u ws (cand keys u))
                (b0, st0)).2.prune) := by
          intro l
          induction l with
          | nil =>
            intro _ _ b0 st0 hps0
            refine ⟨hps0, Finset.Subset.refl _, ?_, ⟨[], by simp, List.nodup_nil, ?_⟩, ?_⟩
            · simp
            · intro t
              simp
            · intro c hc
              cases hc
          | cons c l ihl =>
            intro hmeml hndl b0 st0 hps0
            have hc : c ∈ cand keys u := hmeml c (List.mem_cons_self c l)
            have hcd : u &&& c = 0 := (mem_cand.1 hc).2.1
            have hchain' : chainB keys 0 (cs ++ [c]) = true := by
              apply chain_append.2
              refine ⟨hchain, chainB_cons.2 ⟨?_, rfl⟩⟩
              rw [← hulast]
              exact hc
            have hu' : bigU 0 (cs ++ [c]) = u ||| c := by
              rw [bigU_snoc, ← hulast]
            have hdead_iff2 : PruneDead keys (u ||| c) ↔
                ¬∃ L, chainB keys (u ||| c) L = true ∧
                  cs.length + 1 + L.length = 5 := by
              have hd := dead_iff hk hchain'
              rw [hu'] at hd
              simp only [List.length_append, List.length_singleton] at hd
              exact hd
            rw [List.foldl_cons]
            have hstep0 : mergeStep graph (merge graph ordF f) u ws (cand keys u)
                (b0, st0) c =
                if (u ||| c) ∈ st0.prune then (b0, st0)
                else
                  if (merge graph ordF f (u ||| c) (u :: ws)
                      (cand keys u ∩ graph c) st0).1 then
                    (true, (merge graph ordF f (u ||| c) (u :: ws)
                      (cand keys u ∩ graph c) st0).2)
                  else (b0, ⟨insert (u ||| c) (merge graph ordF f (u ||| c) (u :: ws)
                      (cand keys u ∩ graph c) st0).2.prune,
                    (merge graph ordF f (u ||| c) (u :: ws)
                      (cand keys u ∩ graph c) st0).2.cliques⟩) := by
              rw [mergeStep]
              rw [if_neg (by simp [hcd])]
            rw [hstep0]
            by_cases hcache : (u ||| c) ∈ st0.prune
            · rw [if_pos hcache]
              have hnoc : ¬∃ L, chainB keys (u ||| c) L = true ∧
                  cs.length + 1 + L.length = 5 :=
                hdead_iff2.1 (hps0 _ hcache)
              obtain ⟨p1, p2, p3, ⟨new2, pcl, pnd, pmem⟩, p5⟩ :=
                ihl (fun x hx => hmeml x (List.mem_cons_of_mem c hx))
                  (List.Nodup.of_cons hndl) b0 st0 hps0
              refine ⟨p1, p2, ?_, ⟨new2, pcl, pnd, ?_⟩, ?_⟩
              · rw [p3]
                constructor
                · rintro (hb0 | ⟨c', hc', hL⟩)
                  · exact Or.inl hb0
                  · exact Or.inr ⟨c', List.mem_cons_of_mem c hc', hL⟩
                · rintro (hb0 | ⟨c', hc', hL⟩)
                  · exact Or.inl hb0
                  · rcases List.mem_cons.1 hc' with rfl | hc'
                    · exact absurd hL hnoc
                    · exact Or.inr ⟨c', hc', hL⟩
              · intro t
                rw [pmem t]
                constructor
                · rintro ⟨c', hc', hL⟩
                  exact ⟨c', List.mem_cons_of_mem c hc', hL⟩
                · rintro ⟨c', hc', L, hL, hlen5, ht⟩
                  rcases List.mem_cons.1 hc' with rfl | hc'
                  · exact absurd ⟨L, hL, hlen5⟩ hnoc
                  · exact ⟨c', hc', L, hL, hlen5, ht⟩
              · intro c' hc' hno
                rcases List.mem_cons.1 hc' with rfl | hc'
                · exact p2 hcache
                · exact p5 c' hc' hno
            · rw [if_neg hcache]
              have hgc : graph c = cand keys c :=
                hg c (cand_subset_keys keys u hc)
              have hinter : cand keys u ∩ graph c = cand keys (u ||| c) := by
                rw [hgc, ← cand_or hk hc]
              rw [hinter]
              have hrep' : (u ||| c) :: u :: ws =
                  (runningUnions 0 (cs ++ [c])).reverse := by
                rw [runningUnions_append_last, List.reverse_append]
                show (u ||| c) :: u :: ws = [bigU 0 cs ||| c] ++ (runningUnions 0 cs).reverse
                rw [← hrep, ← hulast]
                rfl
              obtain ⟨ps1, sub1, flag1, ⟨new1, hcl1, hnd1, hmem1⟩, _⟩ :=
                ihf (cs ++ [c]) st0 hchain' (by simp) (by simp; omega)
                  (by simp; omega) hps0 (u ||| c) (u :: ws) hrep'
              simp only [List.length_append, List.length_singleton] at flag1 hmem1
              by_cases hflag : (merge graph ordF f (u ||| c) (u :: ws)
                  (cand keys (u ||| c)) st0).1 = true
              · rw [if_pos hflag]
                obtain ⟨q1, q2, q3, ⟨new2, qcl, qnd, qmem⟩, q5⟩ :=
                  ihl (fun x hx => hmeml x (List.mem_cons_of_mem c hx))
                    (List.Nodup.of_cons hndl) true
                    (merge graph ordF f (u ||| c) (u :: ws)
                      (cand keys (u ||| c)) st0).2 ps1
                have hexc : ∃ L, chainB keys (u ||| c) L = true ∧
                    cs.length + 1 + L.length = 5 := flag1.1 hflag
                refine ⟨q1, Finset.Subset.trans sub1 q2, ?_,
                  ⟨new1 ++ new2, ?_, ?_, ?_⟩, ?_⟩
                · rw [q3]
                  constructor
                  · intro _
                    obtain ⟨L, hL⟩ := hexc
                    exact Or.inr ⟨c, List.mem_cons_self c l, L, hL⟩
                  · intro _
                    exact Or.inl rfl
                · rw [qcl, hcl1, List.append_assoc]
                · rw [List.nodup_append]
                  refine ⟨hnd1, qnd, ?_⟩
                  intro t ht1 ht2
                  obtain ⟨L, _, _, ht⟩ := (hmem1 t).1 ht1
                  obtain ⟨c', hc', L', _, _, ht'⟩ := (qmem t).1 ht2
                  rw [ht] at ht'
                  rw [List.append_assoc, List.singleton_append] at ht'
                  have := List.append_cancel_left ht'
                  have hcc : c = c' := by
                    injection this
                  rw [← hcc] at hc'
                  exact (List.nodup_cons.1 hndl).1 hc'
                · intro t
                  rw [List.mem_append, hmem1 t, qmem t]
                  constructor
                  · rintro (⟨L, hL, hlen5, ht⟩ | ⟨c', hc', L, hL, hlen5, ht⟩)
                    · refine ⟨c, List.mem_cons_self c l, L, hL, hlen5, ?_⟩
                      rw [ht, List.append_assoc, List.singleton_append]
                    · exact ⟨c', List.mem_cons_of_mem c hc', L, hL, hlen5, ht⟩
                  · rintro ⟨c', hc', L, hL, hlen5, ht⟩
                    rcases List.mem_cons.1 hc' with rfl | hc'
                    · refine Or.inl ⟨L, hL, hlen5, ?_⟩
                      rw [ht, List.append_assoc, List.singleton_append]
                    · exact Or.inr ⟨c', hc', L, hL, hlen5, ht⟩
                · intro c' hc' hno
                  rcases List.mem_cons.1 hc' with rfl | hc'
                  · exact absurd hexc hno
                  · exact q5 c' hc' hno
              · rw [if_neg hflag]
                have hnoc : ¬∃ L, chainB keys (u ||| c) L = true ∧
                    cs.length + 1 + L.length = 5 := by
                  intro hex
                  exact hflag (flag1.2 hex)
                have hdead : PruneDead keys (u ||| c) := hdead_iff2.2 hnoc
                have hnew1nil : new1 = [] := by
                  rw [List.eq_nil_iff_forall_not_mem]
                  intro t ht
                  obtain ⟨L, hL, hlen5, _⟩ := (hmem1 t).1 ht
                  exact hnoc ⟨L, hL, hlen5⟩
                have hcl1' : (merge graph ordF f (u ||| c) (u :: ws)
                    (cand keys (u ||| c)) st0).2.cliques = st0.cliques := by
                  rw [hcl1, hnew1nil, List.append_nil]
                have hps' : PruneSound keys (insert (u ||| c)
                    (merge graph ordF f (u ||| c) (u :: ws)
                      (cand keys (u ||| c)) st0).2.prune) := by
                  intro p hp
                  rcases Finset.mem_insert.1 hp with rfl | hp
                  · exact hdead
                  · exact ps1 p hp
                obtain ⟨q1, q2, q3, ⟨new2, qcl, qnd, qmem⟩, q5⟩ :=
                  ihl (fun x hx => hmeml x (List.mem_cons_of_mem c hx))
                    (List.Nodup.of_cons hndl) b0
                    ⟨insert (u ||| c) (merge graph ordF f (u ||| c) (u :: ws)
                      (cand keys (u ||| c)) st0).2.prune,
                     (merge graph ordF f (u ||| c) (u :: ws)
                      (cand keys (u ||| c)) st0).2.cliques⟩ hps'
                refine ⟨q1, ?_, ?_, ⟨new2, ?_, qnd, ?_⟩, ?_⟩
                · intro p hp
                  exact q2 (Finset.mem_insert_of_mem (sub1 hp))
                · rw [q3]
                  constructor
                  · rintro (hb0 | ⟨c', hc', hL⟩)
                    · exact Or.inl hb0
                    · exact Or.inr ⟨c', List.mem_cons_of_mem c hc', hL⟩
                  · rintro (hb0 | ⟨c', hc', hL⟩)
                    · exact Or.inl hb0
                    · rcases List.mem_cons.1 hc' with rfl | hc'
                      · exact absurd hL hnoc
                      · exact Or.inr ⟨c', hc', hL⟩
                · rw [qcl]
                  show (merge graph ordF f (u ||| c) (u :: ws)
                      (cand keys (u ||| c)) st0).2.cliques ++ new2 = _
                  rw [hcl1']
                · intro t
                  rw [qmem t]
                  constructor
                  · rintro ⟨c', hc', hL⟩
                    exact ⟨c', List.mem_cons_of_mem c hc', hL⟩
                  · rintro ⟨c', hc', L, hL, hlen5, ht⟩
                    rcases List.mem_cons.1 hc' with rfl | hc'
                    · exact absurd ⟨L, hL, hlen5⟩ hnoc
                    · exact ⟨c', hc', L, hL, hlen5, ht⟩
                · intro c' hc' hno
                  rcases List.mem_cons.1 hc' with rfl | hc'
                  · exact q2 (Finset.mem_insert_self _ _)
                  · exact q5 c' hc' hno
        have hordn : (ordF (cand keys u)).Nodup :=
          (ho _ (cand_subset_keys keys u)).1
        have hordt : (ordF (cand keys u)).toFinset = cand keys u :=
          (ho _ (cand_subset_keys keys u)).2
        have hmemord : ∀ c : Nat, c ∈ ordF (cand keys u) ↔ c ∈ cand keys u := by
          intro c
          conv_rhs => rw [← hordt]
          rw [List.mem_toFinset]
        obtain ⟨r1, r2, r3, ⟨new, rcl, rnd, rmem⟩, r5⟩ :=
          loop (ordF (cand keys u)) (fun c hc => (hmemord c).1 hc) hordn false st hps
        have hbridge : ∀ P : Prop, ((∃ c ∈ ordF (cand keys u), ∃ L,
            chainB keys (u ||| c) L = true ∧ cs.length + 1 + L.length = 5) ↔
            (∃ L, chainB keys u L = true ∧ cs.length + L.length = 5)) := by
          intro _
          constructor
          · rintro ⟨c, hc, L, hL, hlen5⟩
            refine ⟨c :: L, chainB_cons.2 ⟨(hmemord c).1 hc, hL⟩, ?_⟩
            rw [List.length_cons]
            omega
          · rintro ⟨L, hL, hlen5⟩
            rcases L with _ | ⟨c, L⟩
            · simp at hlen5
              omega
            · obtain ⟨hcc, hLL⟩ := chainB_cons.1 hL
              refine ⟨c, (hmemord c).2 hcc, L, hLL, ?_⟩
              rw [List.length_cons] at hlen5
              omega
        refine ⟨r1, r2, ?_, ⟨new, rcl, rnd, ?_⟩, ?_⟩
        · rw [r3]
          constructor
          · rintro (hb0 | hex)
            · exact Bool.noConfusion hb0
            · exact (hbridge True).1 hex
          · intro hex
            exact Or.inr ((hbridge True).2 hex)
        · intro t
          rw [rmem t]
          constructor
          · rintro ⟨c, hc, L, hL, hlen5, ht⟩
            refine ⟨c :: L, chainB_cons.2 ⟨(hmemord c).1 hc, hL⟩, ?_, ht⟩
            rw [List.length_cons]
            omega
          · rintro ⟨L, hL, hlen5, ht⟩
            rcases L with _ | ⟨c, L⟩
            · simp at hlen5
              omega
            · obtain ⟨hcc, hLL⟩ := chainB_cons.1 hL
              refine ⟨c, (hmemord c).2 hcc, L, hLL, ?_, ht⟩
              rw [List.length_cons] at hlen5
              omega
        · intro _ _ c hcand hno
          exact r5 c ((hmemord c).2 hcand) hno

/-- The prune cache only ever grows, whatever the inputs. -/
theorem merge_prune_mono (graph : Nat → Finset Nat) (ordF : Finset Nat → List Nat) :
    ∀ (fuel lw : Nat) (ws : List Nat) (ns : Finset Nat) (st : MState),
    st.prune ⊆ (merge graph ordF fuel lw ws ns st).2.prune := by
  intro fuel
  induction fuel with
  | zero =>
    intro lw ws ns st
    rw [merge_zero]
  | succ f ih =>
    intro lw ws ns st
    rw [merge_succ]
    by_cases hb : ns.card + (ws.length + 1) < TOTAL_LENGTH
    · rw [if_pos hb]
    · rw [if_neg hb]
      by_cases hbase : ws.length + 1 = TOTAL_LENGTH_MINUS_ONE
      · rw [if_pos hbase]
      · rw [if_neg hbase]
        have go : ∀ (l : List Nat) (acc : Bool × MState), acc.2.prune ⊆
            (l.foldl (mergeStep graph (merge graph ordF f) lw ws ns) acc).2.prune := by
          intro l
          induction l with
          | nil => intro acc; exact Finset.Subset.refl _
          | cons c l ihl =>
            intro acc
            rw [List.foldl_cons]
            refine Finset.Subset.trans ?_ (ihl _)
            rw [mergeStep]
            by_cases h1 : lw &&& c ≠ 0
            · rw [if_pos h1]
            · rw [if_neg h1]
              by_cases h2 : (lw ||| c) ∈ acc.2.prune
              · simp only [if_pos h2]
                exact Finset.Subset.refl _
              · simp only [if_neg h2]
                by_cases h3 : (merge graph ordF f (lw ||| c) (lw :: ws)
                    (ns ∩ graph c) acc.2).1 = true
                · rw [if_pos h3]
                  exact ih (lw ||| c) (lw :: ws) (ns ∩ graph c) acc.2
                · rw [if_neg h3]
                  refine Finset.Subset.trans
                    (ih (lw ||| c) (lw :: ws) (ns ∩ graph c) acc.2) ?_
                  exact Finset.subset_insert _ _
        exact go (ordF ns) (false, st)

/-- Characterization of a full top-level run from the empty state: the prune
cache is sound, and the clique list holds exactly one entry per chain of
five starting at a key of the processed order. -/
theorem runTop_spec (keys : Finset Nat) (graph : Nat → Finset Nat)
    (ordF : Finset Nat → List Nat) (hk : KeysOK keys) (hg : GraphOK keys graph)
    (ho : OrdOn keys ordF) :
    ∀ (order : List Nat), (∀ w ∈ order, w ∈ keys) → order.Nodup →
    PruneSound keys (runTop graph ordF order).prune ∧
    (runTop graph ordF order).cliques.Nodup ∧
    (∀ t, t ∈ (runTop graph ordF order).cliques ↔
      ∃ w ∈ order, ∃ L, chainB keys w L = true ∧ 1 + L.length = 5 ∧ t = w :: L) := by
  have go : ∀ (l : List Nat), (∀ w ∈ l, w ∈ keys) → l.Nodup →
      ∀ st0 : MState, PruneSound keys st0.prune →
      PruneSound keys (l.foldl (fun st word =>
        (merge graph ordF TOTAL_LENGTH word [] (graph word) st).2) st0).prune ∧
      (∃ new, (l.foldl (fun st word =>
          (merge graph ordF TOTAL_LENGTH word [] (graph word) st).2) st0).cliques =
        st0.cliques ++ new ∧ new.Nodup ∧
        (∀ t, t ∈ new ↔ ∃ w ∈ l, ∃ L, chainB keys w L = true ∧
          1 + L.length = 5 ∧ t = w :: L)) := by
    intro l
    induction l with
    | nil =>
      intro _ _ st0 hps0
      refine ⟨hps0, [], by simp, List.nodup_nil, ?_⟩
      intro t
      simp
    | cons w l ihl =>
      intro hmem hnd st0 hps0
      have hwk : w ∈ keys := hmem w (List.mem_cons_self w l)
      have hwc : chainB keys 0 [w] = true := by
        apply chainB_cons.2
        refine ⟨?_, rfl⟩
        rw [cand_zero hk]
        exact hwk
      have hrep : [w] = (runningUnions 0 [w]).reverse := by
        show [w] = [(0 ||| w)].reverse
        rw [Nat.zero_or]
        rfl
      have hgw : graph w = cand keys w := hg w hwk
      obtain ⟨ps1, _, _, ⟨new1, hcl1, hnd1, hmem1⟩, _⟩ :=
        merge_spec keys graph ordF hk hg ho TOTAL_LENGTH [w] st0 hwc
          (by simp) (by simp) (by simp [TOTAL_LENGTH]) hps0 w [] hrep
      rw [List.foldl_cons]
      have harg : merge graph ordF TOTAL_LENGTH w [] (graph w) st0 =
          merge graph ordF TOTAL_LENGTH w [] (cand keys w) st0 := by
        rw [hgw]
      obtain ⟨ps2, ⟨new2, hcl2, hnd2, hmem2⟩⟩ :=
        ihl (fun x hx => hmem x (List.mem_cons_of_mem w hx))
          (List.Nodup.of_cons hnd)
          (merge graph ordF TOTAL_LENGTH w [] (graph w) st0).2
          (by rw [harg]; exact ps1)
      refine ⟨ps2, new1 ++ new2, ?_, ?_, ?_⟩
      · rw [hcl2, harg, hcl1, List.append_assoc]
      · rw [List.nodup_append]
        refine ⟨hnd1, hnd2, ?_⟩
        intro t ht1 ht2
        obtain ⟨L, _, _, ht⟩ := (hmem1 t).1 ht1
        obtain ⟨w', hw', L', _, _, ht'⟩ := (hmem2 t).1 ht2
        rw [ht] at ht'
        have hww : w = w' := by
          have := congrArg (fun x => x.head?) ht'
          simp only [List.cons_append, List.head?_cons] at this
          injection this
        rw [← hww] at hw'
        exact (List.nodup_cons.1 hnd).1 hw'
      · intro t
        rw [List.mem_append, hmem1 t, hmem2 t]
        constructor
        · rintro (⟨L, hL, hlen5, ht⟩ | ⟨w', hw', L, hL, hlen5, ht⟩)
          · refine ⟨w, List.mem_cons_self w l, L, hL, ?_, ?_⟩
            · simpa using hlen5
            · rw [ht]
              rfl
          · exact ⟨w', List.mem_cons_of_mem w hw', L, hL, hlen5, ht⟩
        · rintro ⟨w', hw', L, hL, hlen5, ht⟩
          rcases List.mem_cons.1 hw' with rfl | hw'
          · refine Or.inl ⟨L, hL, ?_, ?_⟩
            · simpa using hlen5
            · rw [ht]
              rfl
          · exact Or.inr ⟨w', hw', L, hL, hlen5, ht⟩
  intro order hmem hnd
  have hempty : PruneSound keys (∅ : Finset Nat) := by
    intro p hp
    exact absurd hp (Finset.not_mem_empty p)
  obtain ⟨ps, new, hcl, hnodup, hmemf⟩ := go order hmem hnd ⟨∅, []⟩ hempty
  rw [runTop]
  refine ⟨ps, ?_, ?_⟩
  · rw [hcl]
    simpa using hnodup
  · intro t
    rw [hcl]
    simp only [List.nil_append]
    exact hmemf t

theorem chain_iff_pairwise {keys : Finset Nat} (hk : KeysOK keys) (t : List Nat) :
    chainB keys 0 t = true ↔
      ((∀ x ∈ t, x ∈ keys) ∧ t.Pairwise (fun a b => a &&& b = 0 ∧ a < b)) := by
  constructor
  · intro h
    refine ⟨?_, chain_pairwise h⟩
    intro x hx
    have := chain_forall h x hx
    rw [cand_zero hk] at this
    exact this
  · rintro ⟨hmem, hpair⟩
    apply chain_of_forall_pairwise hk t 0
    · intro x hx
      exact ⟨hmem x hx, Nat.zero_and x, keys_pos hk (hmem x hx)⟩
    · exact hpair

/-- The clique list of a full run over an order covering the keys holds
exactly the increasing pairwise-disjoint chains of five keys. -/
theorem run_mem_iff (keys : Finset Nat) (graph : Nat → Finset Nat)
    (ordF : Finset Nat → List Nat) (order : List Nat) (hk : KeysOK keys)
    (hg : GraphOK keys graph) (ho : OrdOn keys ordF)
    (hmem : ∀ w ∈ order, w ∈ keys) (hnd : order.Nodup)
    (hcov : ∀ w ∈ keys, w ∈ order) :
    ∀ t, t ∈ (runTop graph ordF order).cliques ↔
      (chainB keys 0 t = true ∧ t.length = 5) := by
  obtain ⟨_, _, hmemiff⟩ := runTop_spec keys graph ordF hk hg ho order hmem hnd
  intro t
  rw [hmemiff t]
  constructor
  · rintro ⟨w, hw, L, hL, hlen5, rfl⟩
    constructor
    · apply chainB_cons.2
      refine ⟨?_, ?_⟩
      · rw [cand_zero hk]
        exact hmem w hw
      · rwa [Nat.zero_or]
    · rw [List.length_cons]
      omega
  · rintro ⟨hchain, hlen5⟩
    rcases t with _ | ⟨w, L⟩
    · simp at hlen5
    · obtain ⟨hw, hL⟩ := chainB_cons.1 hchain
      rw [cand_zero hk] at hw
      rw [Nat.zero_or] at hL
      refine ⟨w, hcov w hw, L, hL, ?_, rfl⟩
      rw [List.length_cons] at hlen5
      omega

/-- KeysOK holds for the key set of the anagram index of a lowercase stream. -/
theorem keysOK_read_words {stream : List Word} (hlc : LowercaseStream stream) :
    KeysOK (keyList (read_words stream)).toFinset := by
  intro k hk
  rw [List.mem_toFinset, mem_keyList_read_words] at hk
  obtain ⟨w, hw, hlen, hbc, hls⟩ := hk
  rw [← hls]
  exact ⟨hbc, letter_set_subset_all (hlc w hw)⟩

/-- GraphOK holds for the graph that neighbor_graph builds from the index. -/
theorem graphOK_read_words (stream : List Word) :
    GraphOK (keyList (read_words stream)).toFinset
      (lookupG (neighbor_graph (read_words stream))) := by
  intro c hc
  ext B
  rw [neighbor_graph,
    mem_lookupG_ngAux _ (sortedKeys_pairwise _ (nodup_keyList_read_words stream)),
    mem_sortedKeys, mem_sortedKeys, mem_cand, List.mem_toFinset]
  rw [List.mem_toFinset] at hc
  constructor
  · rintro ⟨_, hB, hd, hlt⟩
    exact ⟨hB, hd, hlt⟩
  · rintro ⟨hB, hd, hlt⟩
    exact ⟨hc, hB, hd, hlt⟩

/-- The concrete list-based enumeration oracle is valid on the key set its
base list enumerates. -/
theorem listOrd_ordOn (keys : Finset Nat) (l : List Nat) (hnd : l.Nodup)
    (hto : l.toFinset = keys) : OrdOn keys (listOrd l) := by
  intro s hs
  constructor
  · exact List.Nodup.filter _ hnd
  · ext x
    rw [List.mem_toFinset, listOrd, List.mem_filter]
    constructor
    · rintro ⟨_, hx⟩
      rwa [decide_eq_true_eq] at hx
    · intro hx
      refine ⟨?_, by rwa [decide_eq_true_eq]⟩
      have : x ∈ keys := hs hx
      rw [← hto, List.mem_toFinset] at this
      exact this

/-- Monotonicity of the prune cache across a fold of top-level calls. -/
theorem run_prune_mono (graph : Nat → Finset Nat) (ordF : Finset Nat → List Nat) :
    ∀ (l : List Nat) (st0 : MState), st0.prune ⊆
      (l.foldl (fun st word =>
        (merge graph ordF TOTAL_LENGTH word [] (graph word) st).2) st0).prune := by
  intro l
  induction l with
  | nil => intro st0; exact Finset.Subset.refl _
  | cons w l ihl =>
    intro st0
    rw [List.foldl_cons]
    exact Finset.Subset.trans (merge_prune_mono graph ordF TOTAL_LENGTH w [] (graph w) st0)
      (ihl _)

/-- Every dead child union of a processed top-level key whose bound check
passes is recorded in the final prune cache. -/
theorem run_insertion (keys : Finset Nat) (graph : Nat → Finset Nat)
    (ordF : Finset Nat → List Nat) (hk : KeysOK keys) (hg : GraphOK keys graph)
    (ho : OrdOn keys ordF) :
    ∀ (l : List Nat), (∀ w ∈ l, w ∈ keys) →
    ∀ st0 : MState, PruneSound keys st0.prune →
    ∀ w ∈ l, ¬((cand keys w).card + 1 < 5) →
    ∀ c ∈ cand keys w, PruneDead keys (w ||| c) →
    (w ||| c) ∈ (l.foldl (fun st word =>
      (merge graph ordF TOTAL_LENGTH word [] (graph word) st).2) st0).prune := by
  intro l
  induction l with
  | nil =>
    intro _ _ _ w hw
    cases hw
  | cons w' l ihl =>
    intro hmem st0 hps0 w hwl hbound c hc hdead
    have hw'k : w' ∈ keys := hmem w' (List.mem_cons_self w' l)
    have hw'c : chainB keys 0 [w'] = true := by
      apply chainB_cons.2
      refine ⟨?_, rfl⟩
      rw [cand_zero hk]
      exact hw'k
    have hrep : [w'] = (runningUnions 0 [w']).reverse := by
      show [w'] = [(0 ||| w')].reverse
      rw [Nat.zero_or]
      rfl
    have hgw : graph w' = cand keys w' := hg w' hw'k
    obtain ⟨ps1, _, _, _, hins⟩ :=
      merge_spec keys graph ordF hk hg ho TOTAL_LENGTH [w'] st0 hw'c
        (by simp) (by simp) (by simp [TOTAL_LENGTH]) hps0 w' [] hrep
    have harg : merge graph ordF TOTAL_LENGTH w' [] (graph w') st0 =
        merge graph ordF TOTAL_LENGTH w' [] (cand keys w') st0 := by
      rw [hgw]
    rw [List.foldl_cons]
    rcases List.mem_cons.1 hwl with rfl | hwl
    · have hchain2 : chainB keys 0 [w, c] = true := by
        apply chainB_cons.2
        refine ⟨?_, ?_⟩
        · rw [cand_zero hk]
          exact hw'k
        · apply chainB_cons.2
          refine ⟨?_, rfl⟩
          rw [Nat.zero_or]
          exact hc
      have hu2 : bigU 0 [w, c] = w ||| c := by
        show (0 ||| w) ||| c = w ||| c
        rw [Nat.zero_or]
      have hnoc : ¬∃ L, chainB keys (w ||| c) L = true ∧
          ([w] : List Nat).length + 1 + L.length = 5 := by
        have hd := (dead_iff hk hchain2).1 (by rwa [hu2])
        rw [hu2] at hd
        rintro ⟨L, hL, hlen⟩
        apply hd
        refine ⟨L, hL, ?_⟩
        simp only [List.length_cons, List.length_singleton] at hlen ⊢
        omega
      have hmemp : (w ||| c) ∈ (merge graph ordF TOTAL_LENGTH w [] (graph w) st0).2.prune := by
        rw [harg]
        exact hins (by simp) (by simpa using hbound) c hc hnoc
      exact run_prune_mono graph ordF l _ hmemp
    · apply ihl (fun x hx => hmem x (List.mem_cons_of_mem w' hx)) _ ?_ w hwl hbound c hc hdead
      rw [harg]
      exact ps1

/-- C1: running merge from every graph key accumulates exactly the
letter-disjoint quintets of keys: an emitted tuple is precisely an increasing
sequence of five pairwise disjoint keys, and every pairwise disjoint
five-element set of keys is emitted as its increasing enumeration, despite
branches being skipped through the union-keyed prune cache. -/
theorem C1_search_exact (keys : Finset Nat) (graph : Nat → Finset Nat)
    (ordF : Finset Nat → List Nat) (order : List Nat) (hk : KeysOK keys)
    (hg : GraphOK keys graph) (ho : OrdOn keys ordF)
    (hmem : ∀ w ∈ order, w ∈ keys) (hnd : order.Nodup)
    (hcov : ∀ w ∈ keys, w ∈ order) :
    (∀ t, t ∈ (runTop graph ordF order).cliques ↔
      (t.length = 5 ∧ (∀ x ∈ t, x ∈ keys) ∧
        t.Pairwise (fun a b => a &&& b = 0 ∧ a < b))) ∧
    (∀ S : Finset Nat, S ⊆ keys → S.card = 5 →
      (∀ a ∈ S, ∀ b ∈ S, a ≠ b → a &&& b = 0) →
      ∃ t ∈ (runTop graph ordF order).cliques, t.toFinset = S) := by
  have hrun := run_mem_iff keys graph ordF order hk hg ho hmem hnd hcov
  have hfirst : ∀ t, t ∈ (runTop graph ordF order).cliques ↔
      (t.length = 5 ∧ (∀ x ∈ t, x ∈ keys) ∧
        t.Pairwise (fun a b => a &&& b = 0 ∧ a < b)) := by
    intro t
    rw [hrun t, chain_iff_pairwise hk]
    tauto
  refine ⟨hfirst, ?_⟩
  intro S hS hcard hdis
  have hnodup : (S.sort (· ≤ ·)).Nodup := S.sort_nodup (· ≤ ·)
  have hsorted : List.Sorted (· ≤ ·) (S.sort (· ≤ ·)) := S.sort_sorted (· ≤ ·)
  have hlt : (S.sort (· ≤ ·)).Pairwise (· < ·) :=
    (List.Pairwise.and hsorted hnodup).imp (fun h => lt_of_le_of_ne h.1 h.2)
  have hpair : (S.sort (· ≤ ·)).Pairwise (fun a b => a &&& b = 0 ∧ a < b) := by
    refine List.Pairwise.imp_of_mem ?_ hlt
    intro a b ha hb hab
    exact ⟨hdis a (Finset.mem_sort (· ≤ ·) |>.1 ha) b
      (Finset.mem_sort (· ≤ ·) |>.1 hb) (Nat.ne_of_lt hab), hab⟩
  refine ⟨S.sort (· ≤ ·), ?_, S.sort_toFinset (· ≤ ·)⟩
  rw [hfirst]
  refine ⟨?_, ?_, hpair⟩
  · rw [Finset.length_sort]
    exact hcard
  · intro x hx
    exact hS (Finset.mem_sort (· ≤ ·) |>.1 hx)

/-- C2: neither the iteration order of the top-level loop nor the iteration
orders of the candidate sets inside the recursion change the set of emitted
cliques or the canonicalized sorted answer sequence, even though the shared
prune cache is populated in an order-dependent way. -/
theorem C2_order_independence (stream : List Word) (hlc : LowercaseStream stream)
    (ordF1 ordF2 : Finset Nat → List Nat) (order1 order2 : List Nat)
    (ho1 : OrdOn (keyList (read_words stream)).toFinset ordF1)
    (ho2 : OrdOn (keyList (read_words stream)).toFinset ordF2)
    (hmem1 : ∀ w ∈ order1, w ∈ (keyList (read_words stream)).toFinset)
    (hnd1 : order1.Nodup)
    (hcov1 : ∀ w ∈ (keyList (read_words stream)).toFinset, w ∈ order1)
    (hmem2 : ∀ w ∈ order2, w ∈ (keyList (read_words stream)).toFinset)
    (hnd2 : order2.Nodup)
    (hcov2 : ∀ w ∈ (keyList (read_words stream)).toFinset, w ∈ order2) :
    (runTop (lookupG (neighbor_graph (read_words stream))) ordF1 order1).cliques.toFinset =
      (runTop (lookupG (neighbor_graph (read_words stream))) ordF2 order2).cliques.toFinset ∧
    ((runTop (lookupG (neighbor_graph (read_words stream))) ordF1 order1).cliques.flatMap
        (fun cliq => (expand cliq (read_words stream)).map
          (fun t => t.insertionSort (· ≤ ·)))).insertionSort (· ≤ ·) =
      ((runTop (lookupG (neighbor_graph (read_words stream))) ordF2 order2).cliques.flatMap
        (fun cliq => (expand cliq (read_words stream)).map
          (fun t => t.insertionSort (· ≤ ·)))).insertionSort (· ≤ ·) := by
  have hk := keysOK_read_words hlc
  have hg := graphOK_read_words stream
  obtain ⟨_, hnodup1, _⟩ := runTop_spec _ _ ordF1 hk hg ho1 order1 hmem1 hnd1
  obtain ⟨_, hnodup2, _⟩ := runTop_spec _ _ ordF2 hk hg ho2 order2 hmem2 hnd2
  have h1 := run_mem_iff _ _ ordF1 order1 hk hg ho1 hmem1 hnd1 hcov1
  have h2 := run_mem_iff _ _ ordF2 order2 hk hg ho2 hmem2 hnd2 hcov2
  have hset : (runTop (lookupG (neighbor_graph (read_words stream))) ordF1
      order1).cliques.toFinset =
      (runTop (lookupG (neighbor_graph (read_words stream))) ordF2
      order2).cliques.toFinset := by
    ext t
    rw [List.mem_toFinset, List.mem_toFinset, h1 t, h2 t]
  refine ⟨hset, ?_⟩
  have hperm : List.Perm
      (runTop (lookupG (neighbor_graph (read_words stream))) ordF1 order1).cliques
      (runTop (lookupG (neighbor_graph (read_words stream))) ordF2 order2).cliques := by
    have hd := List.toFinset_eq_iff_perm_dedup.1 hset
    rwa [hnodup1.dedup, hnodup2.dedup] at hd
  have hpermf := hperm.flatMap_right
    (fun cliq => (expand cliq (read_words stream)).map
      (fun t => t.insertionSort (· ≤ ·)))
  haveI : IsAntisymm (List Word) (· ≤ ·) := ⟨fun a b h1 h2 => le_antisymm h1 h2⟩
  exact List.eq_of_perm_of_sorted
    (((List.perm_insertionSort _ _).trans hpermf).trans
      (List.perm_insertionSort _ _).symm)
    (List.sorted_insertionSort _ _) (List.sorted_insertionSort _ _)

/-- C3: the prune cache only ever grows during a run, a run starts from the
empty cache, after a run every cached entry is a dead union value recorded
when its branch reported failure, and the dead child unions explored from a
bound-passing top-level key all end up recorded. -/
theorem C3_prune_lifecycle (keys : Finset Nat) (graph : Nat → Finset Nat)
    (ordF : Finset Nat → List Nat) (order : List Nat) (hk : KeysOK keys)
    (hg : GraphOK keys graph) (ho : OrdOn keys ordF)
    (hmem : ∀ w ∈ order, w ∈ keys) (hnd : order.Nodup) :
    (∀ (fuel lw : Nat) (ws : List Nat) (ns : Finset Nat) (st : MState),
      st.prune ⊆ (merge graph ordF fuel lw ws ns st).2.prune) ∧
    (runTop graph ordF ([] : List Nat)).prune = ∅ ∧
    (∀ p ∈ (runTop graph ordF order).prune, PruneDead keys p) ∧
    (∀ w ∈ order, ¬((cand keys w).card + 1 < 5) →
      ∀ c ∈ cand keys w, PruneDead keys (w ||| c) →
        (w ||| c) ∈ (runTop graph ordF order).prune) := by
  refine ⟨merge_prune_mono graph ordF, rfl, ?_, ?_⟩
  · exact (runTop_spec keys graph ordF hk hg ho order hmem hnd).1
  · intro w hw hbound c hc hdead
    rw [runTop]
    apply run_insertion keys graph ordF hk hg ho order hmem ⟨∅, []⟩ ?_ w hw hbound c hc hdead
    intro p hp
    exact absurd hp (Finset.not_mem_empty p)

/-! Facts about expansion and canonicalization. -/

theorem mem_listProd : ∀ (Ls : List (List Word)) (t : List Word),
    t ∈ listProd Ls ↔ List.Forall₂ (fun l w => w ∈ l) Ls t := by
  intro Ls
  induction Ls with
  | nil =>
    intro t
    show t ∈ [[]] ↔ _
    rw [List.mem_singleton, List.forall₂_nil_left_iff]
  | cons l Ls ih =>
    intro t
    show t ∈ l.flatMap (fun x => (listProd Ls).map (fun t => x :: t)) ↔ _
    rw [List.mem_flatMap, List.forall₂_cons_left_iff]
    constructor
    · rintro ⟨x, hx, ht⟩
      rw [List.mem_map] at ht
      obtain ⟨t', ht', rfl⟩ := ht
      exact ⟨x, t', hx, (ih t').1 ht', rfl⟩
    · rintro ⟨x, t', hx, ht', rfl⟩
      refine ⟨x, hx, ?_⟩
      rw [List.mem_map]
      exact ⟨t', (ih t').2 ht', rfl⟩

theorem mem_expand {cliq : List Nat} {anag : List (Nat × List Word)} {t : List Word} :
    t ∈ expand cliq anag ↔
      List.Forall₂ (fun k w => w ∈ lookupW anag k) cliq t := by
  rw [expand, mem_listProd, List.forall₂_map_left_iff]

theorem class_word_props {stream : List Word} {k : Nat} {w : Word}
    (h : w ∈ lookupW (read_words stream) k) : w ∈ stream ∧ letter_set w = k := by
  rw [lookupW_filter, List.mem_filter] at h
  obtain ⟨hmem, hpred⟩ := h
  simp only [Bool.and_eq_true, beq_iff_eq] at hpred
  exact ⟨hmem, hpred.2⟩

theorem selection_map_letter_set : ∀ {cliq : List Nat} {t : List Word},
    List.Forall₂ (fun k w => letter_set w = k) cliq t → t.map letter_set = cliq := by
  intro cliq t h
  induction h with
  | nil => rfl
  | cons hkw _ ih =>
    rw [List.map_cons, ih, hkw]

theorem selection_filter_nil : ∀ {ks : List Nat} {r : List Word},
    List.Forall₂ (fun k w => letter_set w = k) ks r → ∀ {k : Nat}, k ∉ ks →
    r.filter (fun w => letter_set w == k) = [] := by
  intro ks r h
  induction h with
  | nil => intro k _; rfl
  | cons hkw htail ih =>
    intro k hk
    rw [List.filter_cons]
    rw [if_neg (by
      simp only [beq_iff_eq]
      intro hc
      apply hk
      rw [hkw] at hc
      rw [hc]
      exact List.mem_cons_self _ _)]
    exact ih (fun hc => hk (List.mem_cons_of_mem _ hc))

theorem selection_unique : ∀ {ks : List Nat}, ks.Pairwise (· < ·) →
    ∀ {t1 t2 : List Word},
    List.Forall₂ (fun k w => letter_set w = k) ks t1 →
    List.Forall₂ (fun k w => letter_set w = k) ks t2 →
    List.Perm t1 t2 → t1 = t2 := by
  intro ks
  induction ks with
  | nil =>
    intro _ t1 t2 h1 h2 _
    rw [List.forall₂_nil_left_iff.1 h1, List.forall₂_nil_left_iff.1 h2]
  | cons k ks ih =>
    intro hpair t1 t2 h1 h2 hperm
    obtain ⟨w1, r1, hw1, hr1, rfl⟩ := List.forall₂_cons_left_iff.1 h1
    obtain ⟨w2, r2, hw2, hr2, rfl⟩ := List.forall₂_cons_left_iff.1 h2
    have hknot : k ∉ ks := by
      intro hc
      exact absurd rfl (Nat.ne_of_lt (List.rel_of_pairwise_cons hpair hc))
    have hf1 : (w1 :: r1).filter (fun w => letter_set w == k) = [w1] := by
      rw [List.filter_cons, if_pos (by simp [hw1]), selection_filter_nil hr1 hknot]
    have hf2 : (w2 :: r2).filter (fun w => letter_set w == k) = [w2] := by
      rw [List.filter_cons, if_pos (by simp [hw2]), selection_filter_nil hr2 hknot]
    have hfp := hperm.filter (fun w => letter_set w == k)
    rw [hf1, hf2] at hfp
    have hw : w1 = w2 := List.singleton_perm_singleton.1 hfp
    rw [hw] at hperm ⊢
    have hr : r1 = r2 :=
      ih (List.Pairwise.of_cons hpair) hr1 hr2 (List.Perm.cons_inv hperm)
    rw [hr]

theorem nodup_flatMap {α β : Type} (l : List α) (f : α → List β) (hl : l.Nodup)
    (hf : ∀ a ∈ l, (f a).Nodup)
    (hdisj : ∀ a ∈ l, ∀ b ∈ l, a ≠ b → ∀ x ∈ f a, x ∉ f b) :
    (l.flatMap f).Nodup := by
  induction l with
  | nil => exact List.nodup_nil
  | cons a l ih =>
    rw [List.flatMap_cons, List.nodup_append]
    refine ⟨hf a (List.mem_cons_self a l), ?_, ?_⟩
    · exact ih (List.Nodup.of_cons hl) (fun b hb => hf b (List.mem_cons_of_mem a hb))
        (fun b hb c hc => hdisj b (List.mem_cons_of_mem a hb) c
          (List.mem_cons_of_mem a hc))
    · intro x hx hx2
      rw [List.mem_flatMap] at hx2
      obtain ⟨b, hb, hxb⟩ := hx2
      have hab : a ≠ b := by
        intro hc
        rw [← hc] at hb
        exact (List.nodup_cons.1 hl).1 hb
      exact hdisj a (List.mem_cons_self a l) b (List.mem_cons_of_mem a hb) hab x hx hxb

theorem listProd_nodup : ∀ (Ls : List (List Word)), (∀ l ∈ Ls, l.Nodup) →
    (listProd Ls).Nodup := by
  intro Ls
  induction Ls with
  | nil =>
    intro _
    show ([[]] : List (List Word)).Nodup
    exact List.nodup_singleton _
  | cons l Ls ih =>
    intro hall
    show (l.flatMap (fun x => (listProd Ls).map (fun t => x :: t))).Nodup
    apply nodup_flatMap l _ (hall l (List.mem_cons_self l Ls))
    · intro a _
      apply List.Nodup.map
      · intro t1 t2 he
        injection he
      · exact ih (fun l' hl' => hall l' (List.mem_cons_of_mem l hl'))
    · intro a _ b _ hab x hxa hxb
      rw [List.mem_map] at hxa hxb
      obtain ⟨t1, _, rfl⟩ := hxa
      obtain ⟨t2, _, he⟩ := hxb
      injection he with h1 _
      exact hab h1.symm

/-- Two expanded tuples of sorted cliques with the same canonical sort come
from the same clique and the same product element. -/
theorem expand_sort_inj {cliq1 cliq2 : List Nat} {t1 t2 : List Word}
    (hp1 : cliq1.Pairwise (· < ·)) (hp2 : cliq2.Pairwise (· < ·))
    (hf1 : List.Forall₂ (fun k w => letter_set w = k) cliq1 t1)
    (hf2 : List.Forall₂ (fun k w => letter_set w = k) cliq2 t2)
    (hs : t1.insertionSort (· ≤ ·) = t2.insertionSort (· ≤ ·)) :
    cliq1 = cliq2 ∧ t1 = t2 := by
  have hperm : List.Perm t1 t2 :=
    ((List.perm_insertionSort (· ≤ ·) t1).symm.trans (hs ▸ List.perm_insertionSort (· ≤ ·) t2))
  have hm1 : t1.map letter_set = cliq1 := selection_map_letter_set hf1
  have hm2 : t2.map letter_set = cliq2 := selection_map_letter_set hf2
  have hcperm : List.Perm cliq1 cliq2 := by
    rw [← hm1, ← hm2]
    exact hperm.map letter_set
  haveI : IsAntisymm Nat (· < ·) :=
    ⟨fun a b h1 h2 => absurd (Nat.lt_trans h1 h2) (Nat.lt_irrefl a)⟩
  have hceq : cliq1 = cliq2 := List.eq_of_perm_of_sorted hcperm hp1 hp2
  rw [← hceq] at hf2
  exact ⟨hceq, selection_unique hp1 hf1 hf2 hperm⟩

/-- C4 (amended): every answer tuple is sorted and the answer sequence is
sorted, as stated; the claimed absence of duplicate answer tuples requires
the additional hypothesis that the input words are pairwise distinct, since
the final sorted(...) performs no deduplication and a repeated input word
duplicates every answer tuple containing it. -/
theorem C4_output_canonical (ordF : Finset Nat → List Nat) (stream : List Word)
    (ho : OrdOn (keyList (read_words stream)).toFinset ordF)
    (hlc : LowercaseStream stream) (hnd : stream.Nodup) :
    (∀ a ∈ answers ordF stream, List.Sorted (· ≤ ·) a) ∧
    List.Sorted (· ≤ ·) (answers ordF stream) ∧
    (answers ordF stream).Nodup := by
  have hk := keysOK_read_words hlc
  have hg := graphOK_read_words stream
  have hndk := nodup_keyList_read_words stream
  have hmemo : ∀ w ∈ sortedKeys (read_words stream),
      w ∈ (keyList (read_words stream)).toFinset := by
    intro w hw
    rw [List.mem_toFinset]
    exact (mem_sortedKeys _ w).1 hw
  have hndo : (sortedKeys (read_words stream)).Nodup :=
    (List.perm_insertionSort (· ≤ ·) (keyList (read_words stream))).nodup_iff.2 hndk
  have hcov : ∀ w ∈ (keyList (read_words stream)).toFinset,
      w ∈ sortedKeys (read_words stream) := by
    intro w hw
    rw [List.mem_toFinset] at hw
    exact (mem_sortedKeys _ w).2 hw
  have hrun := run_mem_iff _ _ ordF (sortedKeys (read_words stream)) hk hg ho
    hmemo hndo hcov
  obtain ⟨_, hcliqnd, _⟩ := runTop_spec _ _ ordF hk hg ho
    (sortedKeys (read_words stream)) hmemo hndo
  have hpair : ∀ cliq ∈ mainCliques ordF stream, cliq.Pairwise (· < ·) := by
    intro cliq hcliq
    rw [mainCliques] at hcliq
    exact (chain_pairwise ((hrun cliq).1 hcliq).1).imp (fun h => h.2)
  have hsel : ∀ {cliq : List Nat} {t : List Word},
      t ∈ expand cliq (read_words stream) →
      List.Forall₂ (fun k w => letter_set w = k) cliq t := by
    intro cliq t ht
    exact (mem_expand.1 ht).imp (fun k w hw => (class_word_props hw).2)
  refine ⟨?_, List.sorted_insertionSort _ _, ?_⟩
  · intro a ha
    rw [answers, (List.perm_insertionSort (· ≤ ·) _).mem_iff, List.mem_flatMap] at ha
    obtain ⟨cliq, _, ha⟩ := ha
    rw [List.mem_map] at ha
    obtain ⟨t, _, rfl⟩ := ha
    exact List.sorted_insertionSort _ _
  · rw [answers, (List.perm_insertionSort (· ≤ ·) _).nodup_iff]
    apply nodup_flatMap _ _ ?_ ?_ ?_
    · rw [mainCliques]
      exact hcliqnd
    · intro cliq hcliq
      apply List.Nodup.map_on
      · intro t1 ht1 t2 ht2 he
        exact (expand_sort_inj (hpair cliq hcliq) (hpair cliq hcliq)
          (hsel ht1) (hsel ht2) he).2
      · rw [expand]
        apply listProd_nodup
        intro l hl
        rw [List.mem_map] at hl
        obtain ⟨k, _, rfl⟩ := hl
        rw [lookupW_filter]
        exact List.Nodup.filter _ hnd
    · intro c1 h1 c2 h2 hne x hx1 hx2
      rw [List.mem_map] at hx1 hx2
      obtain ⟨t1, ht1, rfl⟩ := hx1
      obtain ⟨t2, ht2, he2⟩ := hx2
      exact hne (expand_sort_inj (hpair c1 h1) (hpair c2 h2)
        (hsel ht1) (hsel ht2) he2.symm).1

/-- Witness for C1 on the six-key synthetic dictionary. -/
theorem C1_search_exact_witness :
    (KeysOK demoKeys.toFinset ∧
     GraphOK demoKeys.toFinset (fun c => cand demoKeys.toFinset c) ∧
     OrdOn demoKeys.toFinset (listOrd demoKeys) ∧
     (∀ w ∈ demoKeys, w ∈ demoKeys.toFinset) ∧ demoKeys.Nodup ∧
     (∀ w ∈ demoKeys.toFinset, w ∈ demoKeys)) ∧
    ((∀ t, t ∈ (runTop (fun c => cand demoKeys.toFinset c) (listOrd demoKeys)
        demoKeys).cliques ↔
      (t.length = 5 ∧ (∀ x ∈ t, x ∈ demoKeys.toFinset) ∧
        t.Pairwise (fun a b => a &&& b = 0 ∧ a < b))) ∧
     (∀ S : Finset Nat, S ⊆ demoKeys.toFinset → S.card = 5 →
      (∀ a ∈ S, ∀ b ∈ S, a ≠ b → a &&& b = 0) →
      ∃ t ∈ (runTop (fun c => cand demoKeys.toFinset c) (listOrd demoKeys)
        demoKeys).cliques, t.toFinset = S)) :=
  ⟨⟨by decide, fun c _ => rfl, listOrd_ordOn _ _ (by decide) rfl, by decide,
    by decide, by decide⟩,
   C1_search_exact demoKeys.toFinset (fun c => cand demoKeys.toFinset c)
     (listOrd demoKeys) demoKeys (by decide) (fun c _ => rfl)
     (listOrd_ordOn _ _ (by decide) rfl) (by decide) (by decide) (by decide)⟩

/-- Witness for C2 on the five-word demo stream with two different top-level
orders and two different set enumeration oracles. -/
theorem C2_order_independence_witness :
    (LowercaseStream demoStream ∧
     OrdOn (keyList (read_words demoStream)).toFinset
       (listOrd (keyList (read_words demoStream))) ∧
     OrdOn (keyList (read_words demoStream)).toFinset
       (listOrd (keyList (read_words demoStream)).reverse)) ∧
    ((runTop (lookupG (neighbor_graph (read_words demoStream)))
        (listOrd (keyList (read_words demoStream)))
        (keyList (read_words demoStream))).cliques.toFinset =
      (runTop (lookupG (neighbor_graph (read_words demoStream)))
        (listOrd (keyList (read_words demoStream)).reverse)
        (keyList (read_words demoStream)).reverse).cliques.toFinset ∧
    ((runTop (lookupG (neighbor_graph (read_words demoStream)))
        (listOrd (keyList (read_words demoStream)))
        (keyList (read_words demoStream))).cliques.flatMap
        (fun cliq => (expand cliq (read_words demoStream)).map
          (fun t => t.insertionSort (· ≤ ·)))).insertionSort (· ≤ ·) =
      ((runTop (lookupG (neighbor_graph (read_words demoStream)))
        (listOrd (keyList (read_words demoStream)).reverse)
        (keyList (read_words demoStream)).reverse).cliques.flatMap
        (fun cliq => (expand cliq (read_words demoStream)).map
          (fun t => t.insertionSort (· ≤ ·)))).insertionSort (· ≤ ·)) :=
  ⟨⟨by decide, listOrd_ordOn _ _ (by decide) rfl,
    listOrd_ordOn _ _ (by decide) (by decide)⟩,
   C2_order_independence demoStream (by decide)
     (listOrd (keyList (read_words demoStream)))
     (listOrd (keyList (read_words demoStream)).reverse)
     (keyList (read_words demoStream)) (keyList (read_words demoStream)).reverse
     (listOrd_ordOn _ _ (by decide) rfl)
     (listOrd_ordOn _ _ (by decide) (by decide))
     (by decide) (by decide) (by decide) (by decide) (by decide) (by decide)⟩

/-- Witness for C3 on the six-key synthetic dictionary. -/
theorem C3_prune_lifecycle_witness :
    (KeysOK demoKeys.toFinset ∧ demoKeys.Nodup) ∧
    ((∀ (fuel lw : Nat) (ws : List Nat) (ns : Finset Nat) (st : MState),
      st.prune ⊆ (merge (fun c => cand demoKeys.toFinset c) (listOrd demoKeys)
        fuel lw ws ns st).2.prune) ∧
    (runTop (fun c => cand demoKeys.toFinset c) (listOrd demoKeys)
      ([] : List Nat)).prune = ∅ ∧
    (∀ p ∈ (runTop (fun c => cand demoKeys.toFinset c) (listOrd demoKeys)
        demoKeys).prune, PruneDead demoKeys.toFinset p) ∧
    (∀ w ∈ demoKeys, ¬((cand demoKeys.toFinset w).card + 1 < 5) →
      ∀ c ∈ cand demoKeys.toFinset w, PruneDead demoKeys.toFinset (w ||| c) →
        (w ||| c) ∈ (runTop (fun c => cand demoKeys.toFinset c)
          (listOrd demoKeys) demoKeys).prune)) :=
  ⟨⟨by decide, by decide⟩,
   C3_prune_lifecycle demoKeys.toFinset (fun c => cand demoKeys.toFinset c)
     (listOrd demoKeys) demoKeys (by decide) (fun c _ => rfl)
     (listOrd_ordOn _ _ (by decide) rfl) (by decide) (by decide)⟩

theorem C5_base_case_witness :
    (([0, 0, 0] : List Nat).length = 3 ∧ 1 ≤ 1) ∧
    ((merge (fun _ => ∅) (fun _ => []) 1 0 [0, 0, 0] {1} ⟨∅, []⟩).1 = true ↔
      ({1} : Finset Nat).Nonempty) :=
  ⟨⟨rfl, le_refl 1⟩,
    C5_base_case (fun _ => ∅) (fun _ => []) 1 0 [0, 0, 0] {1} ⟨∅, []⟩ rfl (le_refl 1)⟩

/-- Witness for C10 at a concrete two-key graph. -/
theorem C10_termination_witness :
    GraphOK {31, 992} (fun c => cand {31, 992} c) ∧
    ((∀ (ordF : Finset Nat → List Nat) (f1 f2 lw : Nat) (ws : List Nat)
      (ns : Finset Nat) (st : MState), ws.length ≤ 3 →
      TOTAL_LENGTH - (ws.length + 1) ≤ f1 → TOTAL_LENGTH - (ws.length + 1) ≤ f2 →
      merge (fun c => cand {31, 992} c) ordF f1 lw ws ns st =
        merge (fun c => cand {31, 992} c) ordF f2 lw ws ns st) ∧
    (∀ u c, c ∈ cand {31, 992} u →
      cand {31, 992} u ∩ cand {31, 992} c ⊂ cand {31, 992} u)) :=
  ⟨fun _ _ => rfl, C10_termination {31, 992} (fun c => cand {31, 992} c) (fun _ _ => rfl)⟩

/-- Witness for C8 on a concrete lowercase word with a repeated letter. -/
theorem C8_codec_invariant_witness :
    Lowercase [97, 98, 99, 97] ∧
    (bit_count (letter_set [97, 98, 99, 97]) = ([97, 98, 99, 97] : Word).toFinset.card ∧
     (([97, 98, 99, 97] : Word).Nodup →
       bit_count (letter_set [97, 98, 99, 97]) = ([97, 98, 99, 97] : Word).length) ∧
     (¬([97, 98, 99, 97] : Word).Nodup →
       bit_count (letter_set [97, 98, 99, 97]) < ([97, 98, 99, 97] : Word).length)) :=
  ⟨by decide, C8_codec_invariant [97, 98, 99, 97] (by decide)⟩

/-- Witness for C4 on the five-word demo stream with the list-based oracle. -/
theorem C4_output_canonical_witness :
    (OrdOn (keyList (read_words demoStream)).toFinset
       (listOrd (keyList (read_words demoStream))) ∧
     LowercaseStream demoStream ∧ demoStream.Nodup) ∧
    ((∀ a ∈ answers (listOrd (keyList (read_words demoStream))) demoStream,
        List.Sorted (· ≤ ·) a) ∧
     List.Sorted (· ≤ ·) (answers (listOrd (keyList (read_words demoStream))) demoStream) ∧
     (answers (listOrd (keyList (read_words demoStream))) demoStream).Nodup) :=
  ⟨⟨listOrd_ordOn _ _ (by decide) rfl, by decide, by decide⟩,
   C4_output_canonical (listOrd (keyList (read_words demoStream))) demoStream
     (listOrd_ordOn _ _ (by decide) rfl) (by decide) (by decide)⟩

/-- Counterexample for the literal C4: with a repeated input word the answer
sequence contains a duplicate tuple, so sorted(...) alone does not ensure
distinct answers. -/
theorem C4_output_canonical_counterexample :
    ¬ (answers (listOrd (keyList (read_words demoStreamDup))) demoStreamDup).Nodup := by
  decide

end FiveClique
